import Mathlib

set_option maxHeartbeats 1000000
set_option maxRecDepth 4000

/-!
Shallow embedding of `src/platformio/builder/tools/piolib.py`, the PlatformIO
Library Dependency Finder (LDF).

Modelling choices, kept uniform through the file:

* Python strings are Lean `String`s (char-list based).  The string helpers
  below (`pyStrip`, `pyLower`, `strPrefix`, ...) re-implement the exact
  Python operations structurally on `String.data`, so that every concrete
  statement can be settled by kernel evaluation.
* SCons `File`/`Dir` nodes are identified with their absolute path strings,
  as the code only ever compares them and takes `get_abspath()`.
* The registry produced by `GetLibBuilders` is a list of static per-library
  configurations (`LibConf`); a library is referred to by its index in that
  list.  The synthetic `ProjectAsLibBuilder` sits at index `regs.length`.
* All mutable per-builder attributes (`_is_dependent`, `_is_built`,
  `_depbuilders`, `_circular_deps`, `_processed_files`, the four shared env
  keys `CPPPATH`/`LIBPATH`/`LIBS`/`LINKFLAGS`) and the process-global
  `_INCLUDE_DIRS_CACHE` live in one state record `RState`, indexed by
  library index.
* External collaborators that are not part of this source file (the SCons
  classic and advanced scanners, `util.items_in_list`,
  `LibraryManager.get_package_dir`, the filesystem predicate `isfile`, the
  extension constants from `platformio/builder/tools/platformio.py`) enter
  as oracle fields of the context `Ctx`.
* The mutually recursive resolver methods `process_dependencies`,
  `depend_recursive` and `search_deps_recursive` become one fuel-indexed
  step function `run` over an explicit call marker type `Call`; Python for
  loops become list-carrying call markers, so each Python statement has one
  visible branch.  Python's recursion is unbounded; the fuel only bounds the
  modelled execution and `.fuelOut` marks exhaustion, never a result the
  Python code could produce.  Similarly `build` becomes `buildRun`.
-/

namespace PioLib

/-! ## Constants (`LibBuilderBase`, lines 85-89) -/

def LDF_MODES : List String := ["off", "chain", "deep", "chain+", "deep+"]

def LDF_MODE_DEFAULT : String := "chain"

def COMPAT_MODES : List Int := [0, 1, 2]

def COMPAT_MODE_DEFAULT : Int := 1

/-! ## Python string primitives, re-implemented structurally -/

/-- Python `str.lower` on one ASCII character. -/
def charLower (ch : Char) : Char :=
  if 'A' ≤ ch ∧ ch ≤ 'Z' then Char.ofNat (ch.toNat + 32) else ch

/-- Python `str.lower` (ASCII fragment, which covers every mode keyword). -/
def pyLower (s : String) : String := String.mk (s.data.map charLower)

/-- Python `str.strip` (leading and trailing whitespace removed). -/
def pyStrip (s : String) : String :=
  String.mk (((s.data.dropWhile Char.isWhitespace).reverse.dropWhile
    Char.isWhitespace).reverse)

/-- Python `a.startswith(b)` / string prefix test, structural on char lists. -/
def strPrefix (pre s : String) : Bool := List.isPrefixOf pre.data s.data

/-- Python `ch in s` for a single character. -/
def strHasChar (s : String) (ch : Char) : Bool := s.data.contains ch

/-- Digits-only parse of a char list (`int()` core). -/
def digitsToNat (cs : List Char) : Option Nat :=
  match cs with
  | [] => none
  | _ =>
    cs.foldl (fun acc ch =>
      acc.bind fun a => if ch.isDigit then some (a * 10 + (ch.toNat - 48)) else none)
      (some 0)

/-- Python `int(s)` on a string: optional sign, digits, surrounding
whitespace tolerated; `none` models the `ValueError`. -/
def parseIntPy (s : String) : Option Int :=
  match (pyStrip s).data with
  | [] => none
  | '-' :: rest => (digitsToNat rest).map fun n => -(n : Int)
  | '+' :: rest => (digitsToNat rest).map fun n => (n : Int)
  | cs => (digitsToNat cs).map fun n => (n : Int)

/-- Python list indexing `l[k]`, including negative indices;
`none` models the `IndexError`. -/
def pyIndex (l : List String) (k : Int) : Option String :=
  if k < 0 then
    if k + l.length < 0 then none else l.get? (k + l.length).toNat
  else l.get? k.toNat

/-- A Python value that may reach the validators: a string or an int
(these are the shapes `LIB_LDF_MODE` / manifest `libLDFMode` take). -/
inductive PyVal where
  | str (s : String)
  | int (n : Int)
deriving DecidableEq

/-! ## `LibBuilderBase.validate_ldf_mode` (lines 218-228) and
`validate_compat_mode` (lines 230-237) -/

def validate_ldf_mode : PyVal → String
  | .str s =>
    let m := pyLower (pyStrip s)
    if m ∈ LDF_MODES then m
    else
      match parseIntPy m with
      | some k => (pyIndex LDF_MODES k).getD LDF_MODE_DEFAULT
      | none => LDF_MODE_DEFAULT
  | .int k => (pyIndex LDF_MODES k).getD LDF_MODE_DEFAULT

def validate_compat_mode : PyVal → Int
  | .str s =>
    match parseIntPy s with
    | some k => if k ∈ COMPAT_MODES then k else COMPAT_MODE_DEFAULT
    | none => COMPAT_MODE_DEFAULT
  | .int k => if k ∈ COMPAT_MODES then k else COMPAT_MODE_DEFAULT

/-! ## Registry compatibility filter `_check_lib_builder`
(inside `GetLibBuilders`, lines 727-745) -/

/-- The slice of a library builder that `_check_lib_builder` consults.
`platCompat` / `fwCompat` stand for the polymorphic
`is_platforms_compatible` / `is_frameworks_compatible` methods (their
variant-specific bodies call the external `util.items_in_list`). -/
structure RegLib where
  name : String
  compatRaw : PyVal
  platCompat : List String → Bool
  fwCompat : List String → Bool

/-- The `lib_compat_mode` property: the raw configured value put through
`validate_compat_mode`. -/
def RegLib.libCompatMode (lb : RegLib) : Int := validate_compat_mode lb.compatRaw

/-- The environment slice `_check_lib_builder` reads: `LIB_IGNORE`,
`PIOPLATFORM` (assumed present, the code indexes it directly) and
`PIOFRAMEWORK` (presence tested with `in`). -/
structure RegEnv where
  libIgnore : List String
  pioPlatform : String
  pioFrameworks : Option (List String)

/-- Python returns `None`, `False` or `True` here; only `True` keeps the
entry (`if _check_lib_builder(lb): items.append(lb)`). -/
inductive CheckRes where
  | pyNone
  | pyFalse
  | pyTrue
deriving DecidableEq, BEq

def checkLibBuilder (env : RegEnv) (lb : RegLib) : CheckRes :=
  if lb.name ∈ env.libIgnore then .pyNone
  else if lb.libCompatMode > 1 && !(lb.platCompat [env.pioPlatform]) then .pyFalse
  else if lb.libCompatMode > 0 && env.pioFrameworks.isSome
       && !(lb.fwCompat (env.pioFrameworks.getD [])) then .pyFalse
  else .pyTrue

/-! ## Static configuration of one library and the run context -/

/-- One normalized manifest dependency declaration
(`LibraryManager.normalize_dependencies` output shape). -/
structure DepDecl where
  name : String
  platforms : Option (List String)
  frameworks : Option (List String)
deriving DecidableEq

/-- Static, filesystem-derived data of one library builder: the values the
resolver reads but never writes.  `searchFiles` is the `get_search_files()`
result, `includeDirs` the `get_include_dirs()` result (both are pure
filesystem probes in the source). -/
structure LibConf where
  name : String
  path : String
  deps : List DepDecl
  ldfModeRaw : PyVal
  searchFiles : List String
  includeDirs : List String
  libArchive : Bool
  platCompat : List String → Bool
  fwCompat : List String → Bool

/-- The run context: the cached registry (`__PIO_LIB_BUILDERS`), the
project-as-library configuration, the relevant environment variables and
the external oracles. -/
structure Ctx where
  regs : List LibConf
  proj : LibConf
  libDeps : List String
  pioPlatform : Option String
  pioFrameworks : Option (List String)
  itemsInList : List String → List String → Bool
  getPackageDir : String → String → Option String
  advScan : List String → String → Option (List String)
  classicScan : List String → String → List String
  isfile : String → Bool
  srcHeaderExt : List String
  srcCExt : List String

/-- Configuration of the builder at index `i`; indices past the registry
denote the synthetic project builder. -/
def Ctx.conf (c : Ctx) (i : Nat) : LibConf := c.regs.getD i c.proj

def Ctx.isProj (c : Ctx) (i : Nat) : Bool := decide (c.regs.length ≤ i)

/-- `ProjectAsLibBuilder.lib_ldf_mode` (lines 660-666): chain modes are
upgraded to deep so all project files get parsed. -/
def projectLdfMode (m : String) : String :=
  if !(strPrefix "chain" m) then m
  else if strHasChar m '+' then "deep+" else "deep"

/-- Effective `lib_ldf_mode` of builder `i`: the configured raw value put
through `validate_ldf_mode`, with the project override applied. -/
def Ctx.effMode (c : Ctx) (i : Nat) : String :=
  let m := validate_ldf_mode (c.conf i).ldfModeRaw
  if c.isProj i then projectLdfMode m else m

/-! ## Mutable resolution/build state -/

/-- The four env keys `build` shares between builders
(`CPPPATH`, `LIBPATH`, `LIBS`, `LINKFLAGS`). -/
structure BEnvEntry where
  cpp : List String
  libp : List String
  libsK : List String
  linkf : List String
deriving DecidableEq

def BEnvEntry.empty : BEnvEntry := ⟨[], [], [], []⟩

/-- Whole mutable state of a resolution/build run, indexed by builder
index.  `incCache` is the process-global `_INCLUDE_DIRS_CACHE`. -/
structure RState where
  isDep : List Bool
  built : List Bool
  dep : List (List Nat)
  circ : List (List Nat)
  processed : List (List String)
  envs : List BEnvEntry
  incCache : Option (List String)
deriving DecidableEq

def RState.init (n : Nat) : RState :=
  ⟨List.replicate n false, List.replicate n false, List.replicate n [],
   List.replicate n [], List.replicate n [], List.replicate n BEnvEntry.empty,
   none⟩

def depF (s : RState) (i : Nat) : List Nat := s.dep.getD i []

def circF (s : RState) (i : Nat) : List Nat := s.circ.getD i []

def isDepF (s : RState) (i : Nat) : Bool := s.isDep.getD i false

def builtF (s : RState) (i : Nat) : Bool := s.built.getD i false

def procF (s : RState) (i : Nat) : List String := s.processed.getD i []

def envF (s : RState) (i : Nat) : BEnvEntry := s.envs.getD i BEnvEntry.empty

/-! ## `GetLibBuilders` on a warm cache (lines 716-721) -/

def depKey (s : RState) (i : Nat) : Nat := if isDepF s i then 0 else 1

/-- Subsequent `GetLibBuilders` calls return the cached entries re-sorted by
`key=lambda lb: 0 if lb.dependent else 1`.  Python's `sorted` is stable;
`List.insertionSort` is the stable sort available here. -/
def Ctx.getLibBuilders (c : Ctx) (s : RState) : List Nat :=
  List.insertionSort (fun a b => depKey s a ≤ depKey s b) (List.range c.regs.length)

/-! ## `LibBuilderBase.__contains__` (lines 119-125) -/

/-- Path containment: `commonprefix((p1 + sep, p2)) == p1 + sep`, i.e.
`lb.path + "/"` is a string prefix of `p` (POSIX branch; the Windows branch
additionally lowercases both sides). -/
def LibConf.containsPath (lb : LibConf) (p : String) : Bool :=
  strPrefix (lb.path ++ "/") p

/-! ## Include scanning: `_get_found_includes` (lines 326-371) -/

/-- Split a path at its last dot: `(s[:s.rindex "."], s[s.rindex "." + 1:])`.
`none` models the `ValueError` when no dot occurs. -/
def splitLastDot (p : String) : Option (String × String) :=
  if p.data.contains '.' then
    let rev := p.data.reverse
    some (String.mk (((rev.dropWhile (fun ch => ch ≠ '.')).drop 1).reverse),
          String.mk ((rev.takeWhile (fun ch => ch ≠ '.')).reverse))
  else none

/-- Modelled from the spec: `env.IsFileWithExt` is defined in
`platformio/builder/tools/platformio.py`, which is not among the sources
here; per the spec it is the test that a file name carries one of the given
("recognized") extensions. -/
def isFileWithExt (p : String) (exts : List String) : Bool :=
  match splitLastDot p with
  | some (_, e) => exts.contains e
  | none => false

/-- One step of the fallback widening loop (lines 353-366): append the
found include, and if it is a recognized header, also append every sibling
source file sharing its base name. -/
def widenStep (c : Ctx) (acc : List String) (inc : String) : List String :=
  let acc2 := acc ++ [inc]
  if isFileWithExt inc c.srcHeaderExt then
    match splitLastDot inc with
    | some (stem, _) =>
      acc2 ++ ((c.srcCExt.filter fun e => c.isfile (stem ++ "." ++ e)).map
        fun e => stem ++ "." ++ e)
    | none => acc2
  else acc2

/-- Fallback branch of `_get_found_includes` for one file: the classic
scanner result, widened by the header-name-implies-source heuristic
(`PARSE_SRC_BY_H_NAME` is `True` on every builder class). -/
def classicWiden (c : Ctx) (incDirs : List String) (path : String) : List String :=
  (c.classicScan incDirs path).foldl (widenStep c) []

/-- Scan of one file: the advanced scanner is attempted only when the mode
contains `+` (the leading `assert "+" in self.lib_ldf_mode` raises
otherwise, and any exception — assert or scanner failure, `advScan = none` —
lands in the classic fallback). -/
def getFoundIncludesOne (c : Ctx) (mode : String) (incDirs : List String)
    (path : String) : List String :=
  if strHasChar mode '+' then
    match c.advScan incDirs path with
    | some incs => incs
    | none => classicWiden c incDirs path
  else classicWiden c incDirs path

/-- `_validate_search_files` (lines 313-324): keep only files not yet in
`_processed_files`, appending them to it as the loop goes (so duplicates
inside the input are also dropped).  Returns (new files, new processed). -/
def validateSearchFiles (processed : List String) (files : List String) :
    List String × List String :=
  files.foldl (fun acc p =>
    if acc.2.contains p then acc else (acc.1 ++ [p], acc.2 ++ [p]))
    ([], processed)

/-- The `if inc not in result: result.append(inc)` accumulation. -/
def dedupAppend (acc : List String) (xs : List String) : List String :=
  xs.foldl (fun r i => if r.contains i then r else r ++ [i]) acc

/-- Rebuild of `_INCLUDE_DIRS_CACHE` (lines 328-332): every registry
builder's include dirs, in (re-sorted) registry order. -/
def buildCache (c : Ctx) (s : RState) : List String :=
  (c.getLibBuilders s).foldl (fun acc i => acc ++ (c.conf i).includeDirs) []

/-- `_get_found_includes` at state level: rebuild the cache if invalidated,
prepend the builder's own include dirs, filter not-yet-processed files,
scan each and deduplicate the found includes across files. -/
def getFoundIncludes (c : Ctx) (self : Nat) (s : RState)
    (files : Option (List String)) : RState × List String :=
  let cache := match s.incCache with
    | some l => l
    | none => buildCache c s
  let incDirs := (c.conf self).includeDirs ++ cache
  let vf := validateSearchFiles (procF s self) (files.getD [])
  let s1 : RState := { s with processed := s.processed.set self vf.2,
                              incCache := some cache }
  (s1, vf.1.foldl (fun acc p =>
    dedupAppend acc (getFoundIncludesOne c (c.effMode self) incDirs p)) [])

/-! ## Ownership mapping (`search_deps_recursive`, lines 408-418) -/

/-- First registry builder (re-sorted order) whose path contains the
header — the inner `for lb in self.env.GetLibBuilders(): ... break`. -/
def ownerOf (c : Ctx) (s : RState) (p : String) : Option Nat :=
  (c.getLibBuilders s).find? fun i => (c.conf i).containsPath p

/-- `lib_inc_map.setdefault(lb, []).append(inc)` on an association list in
insertion order.  (CPython 2 iterates dict items in an unspecified order;
the claims proved below do not depend on the iteration order.) -/
def addToMap (m : List (Nat × List String)) (i : Nat) (p : String) :
    List (Nat × List String) :=
  match m with
  | [] => [(i, [p])]
  | (j, fs) :: rest =>
    if j = i then (j, fs ++ [p]) :: rest else (j, fs) :: addToMap rest i p

/-- Keys (owning builder indices) of the grouping association list. -/
def mapKeys (m : List (Nat × List String)) : List Nat := m.map Prod.fst

/-- Group the found includes by owning builder (lines 408-415). -/
def buildIncMap (c : Ctx) (s : RState) (incs : List String) :
    List (Nat × List String) :=
  incs.foldl (fun m p =>
    match ownerOf c s p with
    | some i => addToMap m i p
    | none => m) []

/-- Spec-side definition, for refinement comparison only (claim C4): the
first library in registry order one of whose resolved include/source
directories is a path prefix of the header's path.  This follows the
spec's words, not the code. -/
def specOwnerByIncludeDirs (c : Ctx) (s : RState) (p : String) : Option Nat :=
  (c.getLibBuilders s).find? fun i =>
    (c.conf i).includeDirs.any fun d => strPrefix (d ++ "/") p

/-! ## `depend_recursive` (lines 373-394) -/

/-- The inner `_already_depends` walk: does `tgt` (the Python `self`) occur
in the transitive closure of `x`'s `_depbuilders`?  The Python recursion is
unbounded and terminates because the dependency relation is kept acyclic;
on acyclic states fuel `s.dep.length` computes the same answer
(`alreadyDepends_complete` below), so `dependLink` passes exactly that. -/
def alreadyDepends (f : Nat → List Nat) (tgt : Nat) : Nat → Nat → Bool
  | 0, _ => false
  | fuel + 1, x => (f x).contains tgt || (f x).any (alreadyDepends f tgt fuel)

/-- The state mutation of `depend_recursive` before the recursive
`search_deps_recursive` call: self-link is a no-op; a would-be cycle is
recorded in `_circular_deps`; a new dependent is appended and the global
include-dir cache invalidated. -/
def dependLink (s : RState) (self lb : Nat) : RState :=
  if self = lb then s
  else if alreadyDepends (depF s) self s.dep.length lb then
    { s with circ := s.circ.set self (circF s self ++ [lb]) }
  else if (depF s self).contains lb then s
  else { s with dep := s.dep.set self (depF s self ++ [lb]), incCache := none }

/-! ## `LibBuilderBase.process_dependencies` (lines 261-298) -/

/-- The declaration filter: skip when the env has the platform (resp.
framework) key, the declaration constrains it, and `util.items_in_list`
rejects the combination. -/
def skipItem (c : Ctx) (it : DepDecl) : Bool :=
  (match c.pioPlatform, it.platforms with
   | some p, some ps => !(c.itemsInList [p] ps)
   | _, _ => false) ||
  (match c.pioFrameworks, it.frameworks with
   | some fw, some fws => !(c.itemsInList fw fws)
   | _, _ => false)

/-- Candidate test in the registry search: name equality plus the
declaration's own framework/platform compatibility checks. -/
def declCompat (c : Ctx) (i : Nat) (it : DepDecl) : Bool :=
  (c.conf i).name = it.name &&
  (match it.frameworks with
   | some fws => (c.conf i).fwCompat fws
   | none => true) &&
  (match it.platforms with
   | some ps => (c.conf i).platCompat ps
   | none => true)

/-- First matching registry builder for a declared dependency. -/
def findDep (c : Ctx) (s : RState) (it : DepDecl) : Option Nat :=
  (c.getLibBuilders s).find? fun i => declCompat c i it

/-- The fatal message of lines 295-297. -/
def errMsg (dep lib : String) : String :=
  "Error: Could not find `" ++ dep ++ "` dependency for `" ++ lib ++ "` library"

/-! ## `ProjectAsLibBuilder.process_dependencies` (lines 676-708) -/

/-- `os.path.dirname` on a POSIX path string. -/
def dirnameStr (p : String) : String :=
  if p.data.contains '/' then
    String.mk (((p.data.reverse.dropWhile (fun ch => ch ≠ '/')).drop 1).reverse)
  else ""

/-- Deduplicated storage directories of all registry builders
(lines 680-683). -/
def storageDirsOf (c : Ctx) (s : RState) : List String :=
  (c.getLibBuilders s).foldl (fun acc i =>
    let d := dirnameStr (c.conf i).path
    if acc.contains d then acc else acc ++ [d]) []

/-- Storage lookup for one URI (lines 686-700): first storage dir whose
package lookup resolves to a path owned by some registry builder; a
storage whose lookup resolves but matches no builder is skipped. -/
def findStorageMatch (c : Ctx) (s : RState) (dirs : List String) (uri : String) :
    Option Nat :=
  dirs.foldl (fun acc st =>
    match acc with
    | some _ => acc
    | none =>
      match c.getPackageDir st uri with
      | some d => (c.getLibBuilders s).find? fun i => (c.conf i).path = d
      | none => none) none

/-- Name fallback of lines 702-708. -/
def findByName (c : Ctx) (s : RState) (uri : String) : Option Nat :=
  (c.getLibBuilders s).find? fun i => (c.conf i).name = uri

/-- Resolution target of one `LIB_DEPS` URI: the storage lookup, then the
name fallback (`if not found:` of line 702). -/
def projTarget (c : Ctx) (s : RState) (dirs : List String) (uri : String) :
    Option Nat :=
  match findStorageMatch c s dirs uri with
  | some lb => some lb
  | none => findByName c s uri

/-! ## The resolver as a fuel-indexed machine -/

/-- Call markers: one per resolver method plus one per Python loop (the
loop's remaining iterations ride on the marker). -/
inductive Call where
  | depRec (self lb : Nat) (files : Option (List String))
  | searchDeps (self : Nat) (files : Option (List String))
  | scanLink (self : Nat) (files : Option (List String))
  | procDeps (self : Nat)
  | procDepsLoop (self : Nat) (items : List DepDecl)
  | projDepsLoop (self : Nat) (dirs : List String) (uris : List String)
  | linkLoop (self : Nat) (pairs : List (Nat × List String))

/-- Result of a resolver step: normal state, the fatal `env.Exit(1)` with
its stderr message, or fuel exhaustion (an artifact of the embedding). -/
inductive RunRes where
  | ok (s : RState)
  | fatal (msg : String)
  | fuelOut
deriving DecidableEq

def RunRes.okD (r : RunRes) (d : RState) : RState :=
  match r with
  | .ok s => s
  | _ => d

def RunRes.isFatal (r : RunRes) : Bool :=
  match r with
  | .fatal _ => true
  | _ => false

def run (c : Ctx) : Nat → Call → RState → RunRes
  | 0, _, _ => .fuelOut
  | fuel + 1, call, s =>
    match call with
    | .depRec self lb files =>
      run c fuel (.searchDeps lb files) (dependLink s self lb)
    | .searchDeps self files =>
      if isDepF s self then run c fuel (.scanLink self files) s
      else
        let s1 := { s with isDep := s.isDep.set self true }
        match run c fuel (.procDeps self) s1 with
        | .ok s2 =>
          let files2 := if strPrefix "deep" (c.effMode self) then
              some (c.conf self).searchFiles
            else files
          run c fuel (.scanLink self files2) s2
        | other => other
    | .scanLink self files =>
      if c.effMode self = "off" then .ok s
      else
        let r := getFoundIncludes c self s files
        run c fuel (.linkLoop self (buildIncMap c r.1 r.2)) r.1
    | .procDeps self =>
      if c.isProj self then
        if c.libDeps.isEmpty then .ok s
        else run c fuel (.projDepsLoop self (storageDirsOf c s) c.libDeps) s
      else
        if (c.conf self).deps.isEmpty then .ok s
        else run c fuel (.procDepsLoop self (c.conf self).deps) s
    | .procDepsLoop self items =>
      match items with
      | [] => .ok s
      | it :: rest =>
        if skipItem c it then run c fuel (.procDepsLoop self rest) s
        else
          match findDep c s it with
          | some lb =>
            match run c fuel (.depRec self lb none) s with
            | .ok s1 => run c fuel (.procDepsLoop self rest) s1
            | other => other
          | none => .fatal (errMsg it.name (c.conf self).name)
    | .projDepsLoop self dirs uris =>
      match uris with
      | [] => .ok s
      | uri :: rest =>
        match projTarget c s dirs uri with
        | some lb =>
          if (depF s self).contains lb then run c fuel (.projDepsLoop self dirs rest) s
          else
            match run c fuel (.depRec self lb none) s with
            | .ok s1 => run c fuel (.projDepsLoop self dirs rest) s1
            | other => other
        | none => run c fuel (.projDepsLoop self dirs rest) s
    | .linkLoop self pairs =>
      match pairs with
      | [] => .ok s
      | (lb, fs) :: rest =>
        match run c fuel (.depRec self lb (some fs)) s with
        | .ok s1 => run c fuel (.linkLoop self rest) s1
        | other => other

/-! ## `build` (lines 420-451, project override lines 710-713) -/

/-- SCons `AppendUnique`: append the items of `ys` not already present. -/
def appendUnique (xs ys : List String) : List String :=
  ys.foldl (fun acc y => if acc.contains y then acc else acc ++ [y]) xs

/-- The four-key merge of lines 424-426 / 441-442. -/
def mergeEntry (e1 e2 : BEnvEntry) : BEnvEntry :=
  ⟨appendUnique e1.cpp e2.cpp, appendUnique e1.libp e2.libp,
   appendUnique e1.libsK e2.libsK, appendUnique e1.linkf e2.linkf⟩

def mergeKeys (s : RState) (self lb : Nat) : RState :=
  { s with envs := s.envs.set self (mergeEntry (envF s self) (envF s lb)) }

def addCpp (s : RState) (self : Nat) (dirs : List String) : RState :=
  let e := envF s self
  let e2 : BEnvEntry := { e with cpp := appendUnique e.cpp dirs }
  { s with envs := s.envs.set self e2 }

/-- Lines 437-442: with LDF off, merge the four keys from every other
already-built registry builder, regardless of relationship. -/
def offModeMerge (c : Ctx) (s : RState) (self : Nat) : RState :=
  (c.getLibBuilders s).foldl (fun st i =>
    if i = self || !builtF st i then st else mergeKeys st self i) s

/-- Build call markers: a builder's `build()`, or the remaining iterations
of its `for lb in self._depbuilders` loop. -/
inductive BCall where
  | one (self : Nat)
  | kids (self : Nat) (rest : List Nat)

/-- `build` as a fueled recursion.  The artifact returned by
`env.BuildLibrary` is identified with the builder's index; `BuildSources`
contributes no artifact to the returned list.  `none` is fuel exhaustion. -/
def buildRun (c : Ctx) : Nat → BCall → RState → Option (RState × List Nat)
  | 0, _, _ => none
  | fuel + 1, .one self, s =>
    let s0 := if c.isProj self then
        addCpp { s with built := s.built.set self true } self
          (c.conf self).includeDirs
      else s
    match buildRun c fuel (.kids self (depF s0 self)) s0 with
    | none => none
    | some (s1, arts) =>
      let s2 := (circF s1 self).foldl
        (fun st lb => addCpp st self (c.conf lb).includeDirs) s1
      if builtF s2 self then some (s2, arts)
      else
        let s3 := addCpp { s2 with built := s2.built.set self true } self
          (c.conf self).includeDirs
        let s4 := if c.effMode self = "off" then offModeMerge c s3 self else s3
        if (c.conf self).libArchive then some (s4, arts ++ [self])
        else some (s4, arts)
  | fuel + 1, .kids self rest, s =>
    match rest with
    | [] => some (s, [])
    | lb :: rest2 =>
      match buildRun c fuel (.one lb) s with
      | none => none
      | some (s1, a1) =>
        match buildRun c fuel (.kids self rest2) (mergeKeys s1 self lb) with
        | none => none
        | some (s3, a2) => some (s3, a1 ++ a2)

/-! ## Graph-theoretic notions used to state the resolver invariants -/

/-- A path from `a` to `b` along the dependent relation `f`, recorded as
the list of visited successors (`[]` means `a = b`). -/
inductive PathTo (f : Nat → List Nat) : Nat → List Nat → Nat → Prop where
  | nil (a : Nat) : PathTo f a [] a
  | cons {a b c2 : Nat} {l : List Nat} (hb : b ∈ f a) (hp : PathTo f b l c2) :
      PathTo f a (b :: l) c2

/-- No node reaches itself through a non-empty path. -/
def Acyclic (f : Nat → List Nat) : Prop := ∀ a l, PathTo f a l a → l = []

/-- The documented `_depbuilders` invariants: the relation is acyclic and
each list is duplicate-free and never contains its own builder. -/
def DepOk (s : RState) : Prop :=
  Acyclic (depF s) ∧ ∀ i, (depF s i).Nodup ∧ i ∉ depF s i

/-- Calls that never touch builder `tgt`'s own `_depbuilders` /
`_processed_files` (used for the LDF-off claim): every call except those
executing `tgt`'s own loops.  `searchDeps`/`procDeps` on `tgt` itself are
safe because with mode `off` and no declared dependencies they return
before reaching any mutation of these fields. -/
def selfSafe (tgt : Nat) : Call → Prop
  | .depRec self _ _ => self ≠ tgt
  | .linkLoop self _ => self ≠ tgt
  | .procDepsLoop self _ => self ≠ tgt
  | .projDepsLoop self _ _ => self ≠ tgt
  | .searchDeps _ _ => True
  | .scanLink _ _ => True
  | .procDeps _ => True

/-- `e1` already absorbs `e2`: re-merging `e2` into `e1` changes nothing. -/
def absorbsE (e1 e2 : BEnvEntry) : Prop := mergeEntry e1 e2 = e1

/-- Componentwise containment of the four shared env keys. -/
def entrySub (e1 e2 : BEnvEntry) : Prop :=
  e1.cpp ⊆ e2.cpp ∧ e1.libp ⊆ e2.libp ∧ e1.libsK ⊆ e2.libsK ∧ e1.linkf ⊆ e2.linkf

/-- A builder whose re-entry is a no-op: already built, and (for the
project override) in range with its own include dirs already absorbed. -/
def NodeOK (c : Ctx) (s : RState) (i : Nat) : Prop :=
  builtF s i = true ∧
  (c.isProj i = true → i < s.built.length ∧ i < s.envs.length ∧
    appendUnique (envF s i).cpp (c.conf i).includeDirs = (envF s i).cpp)

/-- A fully-built, flag-saturated state: every dependency edge and
back-edge has already been merged, which is the situation after a completed
first `build` pass over the graph. -/
def Saturated (c : Ctx) (s : RState) : Prop :=
  (∀ i j, j ∈ depF s i → NodeOK c s j ∧ absorbsE (envF s i) (envF s j)) ∧
  (∀ i j, j ∈ circF s i →
    appendUnique (envF s i).cpp (c.conf j).includeDirs = (envF s i).cpp)

/-- Per-call saturation side condition for a `build` re-entry. -/
def bcallOK (c : Ctx) (s : RState) : BCall → Prop
  | .one self => NodeOK c s self
  | .kids self rest => ∀ j ∈ rest, NodeOK c s j ∧ absorbsE (envF s self) (envF s j)

/-! ## Concrete instances used by counterexamples and witnesses -/

/-- A library configuration with no declared dependencies and permissive
compatibility, as produced for a plain directory library. -/
def mkLib (name path mode : String) (incl files : List String) : LibConf :=
  ⟨name, path, [], .str mode, files, incl, true, fun _ => true, fun _ => true⟩

def dummyProj : LibConf := mkLib "project" "/p" "chain" ["/p/src"] []

/-- A context with inert oracles: no files on disk, scanners that find
nothing, no package storage hits. -/
def baseCtx (regs : List LibConf) (proj : LibConf) : Ctx :=
  ⟨regs, proj, [], none, none, fun _ _ => true, fun _ _ => none,
   fun _ _ => none, fun _ _ => [], fun _ => false, ["h"], ["c", "cpp"]⟩

/-- C1 scenario: a project whose `LIB_DEPS` names a library that no storage
lookup and no registry entry can resolve (the registry is empty). -/
def ctx1 : Ctx :=
  { baseCtx [] (mkLib "p" "/p" "chain" ["/p/src"] []) with libDeps := ["missing"] }

def c1res : RunRes := run ctx1 10 (.searchDeps 0 none) (RState.init 1)

def c1st : RState := c1res.okD (RState.init 1)

/-- C3 scenario: libraries A and B whose headers include each other; both
use `deep` mode so each scans its own sources. -/
def ctx3 : Ctx :=
  { baseCtx [mkLib "A" "/A" "deep" ["/A/s"] ["/A/s/a.cpp"],
             mkLib "B" "/B" "deep" ["/B/s"] ["/B/s/b.cpp"]] dummyProj with
    classicScan := fun _ p =>
      if p = "/A/s/a.cpp" || p = "/A/s/a.h" then ["/B/s/b.h"]
      else if p = "/B/s/b.cpp" || p = "/B/s/b.h" then ["/A/s/a.h"]
      else [] }

def c3res : RunRes := run ctx3 25 (.searchDeps 0 none) (RState.init 3)

def c3st : RState := c3res.okD (RState.init 3)

/-- C2 scenario: one leaf library that archives. -/
def ctx2 : Ctx := baseCtx [mkLib "L" "/L" "chain" ["/L/s"] []] dummyProj

def c2first : Option (RState × List Nat) := buildRun ctx2 3 (.one 0) (RState.init 2)

def c2st : RState := (c2first.getD (RState.init 2, [])).1

def c2second : Option (RState × List Nat) := buildRun ctx2 3 (.one 0) c2st

/-- C4 scenario: a library rooted at `/A` whose resolved include/source
directory is `/A/src`, and a header directly under the root. -/
def ctx4 : Ctx := baseCtx [mkLib "A" "/A" "chain" ["/A/src"] []] dummyProj

/-- C5 scenario: A has LDF off, B is already built with distinctive flags
and no relationship to A. -/
def ctx5 : Ctx :=
  baseCtx [mkLib "A" "/A" "off" ["/A/s"] [], mkLib "B" "/B" "chain" ["/B/s"] []]
    dummyProj

def s5 : RState :=
  { RState.init 3 with
    built := [false, true, false],
    envs := [BEnvEntry.empty, ⟨["-IB"], ["LB"], ["b"], ["-lb"]⟩, BEnvEntry.empty] }

def c5res : Option (RState × List Nat) := buildRun ctx5 3 (.one 0) s5

def c5st : RState := (c5res.getD (RState.init 3, [])).1

/-- C10 scenario: two registry entries whose paths are nested, so both
contain the same header; the owner then depends on the re-sorted order. -/
def ctx10 : Ctx :=
  baseCtx [mkLib "A" "/A" "chain" ["/A/src"] [],
           mkLib "B" "/A/sub" "chain" ["/A/sub/src"] []] dummyProj

def s10b : RState := { RState.init 3 with isDep := [false, true, false] }

/-- C1 witness scenario: one registry library `L` whose manifest declares a
dependency `missing` that nothing in the registry satisfies. -/
def ctxC1w : Ctx :=
  baseCtx [{ mkLib "L" "/L" "chain" ["/L/s"] [] with
             deps := [⟨"missing", none, none⟩] }] dummyProj

/-- C9 scenario: a classic scanner that resolves `/W/a.h` from `/W/m.cpp`,
with `/W/a.cpp` present on disk, and an advanced scanner that succeeds with
a different result. -/
def ctxW : Ctx :=
  { baseCtx [] dummyProj with
    classicScan := fun _ p => if p = "/W/m.cpp" then ["/W/a.h"] else [],
    advScan := fun _ p => if p = "/W/m.cpp" then some ["/W/adv.h"] else none,
    isfile := fun p => p = "/W/a.cpp" }

/-- C7 scenario: a library with compat mode 2 that is platform-compatible
but not framework-compatible, checked in an environment with no framework
context. -/
def c7lb : RegLib := ⟨"X", .int 2, fun _ => true, fun _ => false⟩

def c7env : RegEnv := ⟨[], "atmelavr", none⟩

/-! # Theorems -/

/-! ## Generic list helpers -/

theorem pyIndex_mem {l : List String} {k : Int} {x : String}
    (h : pyIndex l k = some x) : x ∈ l := by
  unfold pyIndex at h
  split at h
  · split at h
    · exact absurd h (by simp)
    · exact List.get?_mem h
  · exact List.get?_mem h

theorem pyIndex_getD_mem {l : List String} {k : Int} {d : String} (hd : d ∈ l) :
    (pyIndex l k).getD d ∈ l := by
  cases h : pyIndex l k with
  | none => simpa using hd
  | some x => simpa using pyIndex_mem h

theorem getD_set_self {α : Type} :
    ∀ (l : List α) (i : Nat) (v d : α), i < l.length → (l.set i v).getD i d = v := by
  intro l
  induction l with
  | nil => intro i v d h; cases h
  | cons x l ih =>
    intro i v d h
    cases i with
    | zero => rfl
    | succ i => exact ih i v d (Nat.lt_of_succ_lt_succ h)

theorem getD_set_ne {α : Type} :
    ∀ (l : List α) (i j : Nat) (v d : α), i ≠ j →
      (l.set i v).getD j d = l.getD j d := by
  intro l
  induction l with
  | nil => intro i j v d _; rfl
  | cons x l ih =>
    intro i j v d h
    cases i with
    | zero =>
      cases j with
      | zero => exact absurd rfl h
      | succ j => rfl
    | succ i =>
      cases j with
      | zero => rfl
      | succ j => exact ih i j v d (fun hh => h (by rw [hh]))

theorem set_getD_self {α : Type} :
    ∀ (l : List α) (i : Nat) (d : α), l.set i (l.getD i d) = l := by
  intro l
  induction l with
  | nil => intro i d; rfl
  | cons x l ih =>
    intro i d
    cases i with
    | zero => rfl
    | succ i => simp only [List.set, List.getD_cons_succ]; rw [ih i d]

theorem set_oob {α : Type} :
    ∀ (l : List α) (i : Nat) (v : α), l.length ≤ i → l.set i v = l := by
  intro l
  induction l with
  | nil => intro i v _; rfl
  | cons x l ih =>
    intro i v h
    cases i with
    | zero => simp at h
    | succ i => simp only [List.set]; rw [ih i v (by simpa using h)]

theorem contains_true_of_mem {α : Type} [BEq α] [LawfulBEq α] {l : List α} {a : α}
    (h : a ∈ l) : l.contains a = true :=
  List.elem_iff.mpr h

theorem mem_of_contains_true {α : Type} [BEq α] [LawfulBEq α] {l : List α} {a : α}
    (h : l.contains a = true) : a ∈ l :=
  List.elem_iff.mp h

theorem contains_false_not_mem {α : Type} [BEq α] [LawfulBEq α] {l : List α} {a : α}
    (h : l.contains a = false) : a ∉ l := by
  intro hm
  rw [contains_true_of_mem hm] at h
  cases h

/-! ## Path and acyclicity lemmas -/

theorem PathTo.nil_eq {f : Nat → List Nat} {a b : Nat}
    (h : PathTo f a [] b) : a = b := by
  cases h; rfl

theorem PathTo.append {f : Nat → List Nat} {a m b : Nat} {u v : List Nat}
    (h1 : PathTo f a u m) (h2 : PathTo f m v b) : PathTo f a (u ++ v) b := by
  induction h1 with
  | nil => simpa using h2
  | cons hb _ ih => exact PathTo.cons hb (ih h2)

theorem PathTo.split {f : Nat → List Nat} :
    ∀ (u : List Nat) {a b : Nat} {v : List Nat}, PathTo f a (u ++ v) b →
      ∃ m, PathTo f a u m ∧ PathTo f m v b := by
  intro u
  induction u with
  | nil => intro a b v h; exact ⟨a, PathTo.nil a, h⟩
  | cons x u ih =>
    intro a b v h
    cases h with
    | cons hb hp =>
      obtain ⟨m, h1, h2⟩ := ih hp
      exact ⟨m, PathTo.cons hb h1, h2⟩

theorem PathTo.concat_eq {f : Nat → List Nat} :
    ∀ (u : List Nat) {a x b : Nat}, PathTo f a (u ++ [x]) b → x = b := by
  intro u
  induction u with
  | nil =>
    intro a x b h
    cases h with
    | cons hb hp => exact hp.nil_eq
  | cons y u ih =>
    intro a x b h
    cases h with
    | cons hb hp => exact ih hp

theorem PathTo.sources {f : Nat → List Nat} {a b : Nat} {l : List Nat}
    (h : PathTo f a l b) : ∀ y ∈ (a :: l).dropLast, f y ≠ [] := by
  induction h with
  | nil => intro y hy; simp at hy
  | cons hb hp ih =>
    intro y hy
    rw [List.dropLast_cons₂] at hy
    rcases List.mem_cons.mp hy with rfl | hy
    · exact List.ne_nil_of_mem hb
    · exact ih y hy

theorem alreadyDepends_sound {f : Nat → List Nat} {tgt : Nat} :
    ∀ (fuel x : Nat), alreadyDepends f tgt fuel x = true →
      ∃ l, l ≠ [] ∧ PathTo f x l tgt := by
  intro fuel
  induction fuel with
  | zero => intro x h; simp [alreadyDepends] at h
  | succ fuel ih =>
    intro x h
    simp only [alreadyDepends, Bool.or_eq_true] at h
    rcases h with h | h
    · exact ⟨[tgt], by simp, PathTo.cons (mem_of_contains_true h) (PathTo.nil tgt)⟩
    · obtain ⟨y, hy, h2⟩ := List.any_eq_true.mp h
      obtain ⟨l, hl, hp⟩ := ih y h2
      exact ⟨y :: l, by simp, PathTo.cons hy hp⟩

theorem alreadyDepends_of_path {f : Nat → List Nat} {tgt : Nat} :
    ∀ (l : List Nat) (x : Nat), PathTo f x l tgt → l ≠ [] →
      ∀ fuel, l.length ≤ fuel → alreadyDepends f tgt fuel x = true := by
  intro l
  induction l with
  | nil => intro x _ h; exact absurd rfl h
  | cons b l2 ih =>
    intro x hp _ fuel hlen
    cases hp with
    | cons hb hp2 =>
      cases fuel with
      | zero => simp at hlen
      | succ fuel =>
        simp only [alreadyDepends, Bool.or_eq_true]
        by_cases hl2 : l2 = []
        · subst hl2
          have hbt : b = tgt := hp2.nil_eq
          subst hbt
          left
          exact contains_true_of_mem hb
        · right
          refine List.any_eq_true.mpr ⟨b, hb, ?_⟩
          refine ih b hp2 hl2 fuel ?_
          simp at hlen
          omega

theorem exists_dup_split :
    ∀ (l : List Nat), ¬ l.Nodup →
      ∃ (a : Nat) (l1 l2 l3 : List Nat), l = l1 ++ a :: l2 ++ a :: l3 := by
  intro l
  induction l with
  | nil => intro h; exact absurd List.nodup_nil h
  | cons x xs ih =>
    intro h
    by_cases hx : x ∈ xs
    · obtain ⟨s, t, rfl⟩ := List.append_of_mem hx
      exact ⟨x, [], s, t, by simp⟩
    · have hxs : ¬ xs.Nodup := fun hn => h (List.nodup_cons.mpr ⟨hx, hn⟩)
      obtain ⟨a, l1, l2, l3, rfl⟩ := ih hxs
      exact ⟨a, x :: l1, l2, l3, by simp⟩

theorem nodup_lt_length_le {l : List Nat} {N : Nat} (hn : l.Nodup)
    (hb : ∀ y ∈ l, y < N) : l.length ≤ N := by
  have h1 : l.toFinset.card = l.length := List.toFinset_card_of_nodup hn
  have h2 : l.toFinset ⊆ Finset.range N := by
    intro y hy
    simp only [List.mem_toFinset] at hy
    exact Finset.mem_range.mpr (hb y hy)
  have h3 := Finset.card_le_card h2
  rw [h1, Finset.card_range] at h3
  exact h3

theorem pathTo_short {f : Nat → List Nat} {tgt N : Nat}
    (hN : ∀ i, f i ≠ [] → i < N) :
    ∀ (n : Nat) (l : List Nat) (x : Nat), l.length ≤ n → PathTo f x l tgt →
      l ≠ [] → x ≠ tgt →
      ∃ m, PathTo f x m tgt ∧ m ≠ [] ∧ m.length ≤ N := by
  intro n
  induction n with
  | zero =>
    intro l x hlen _ hl _
    exact absurd (List.eq_nil_of_length_eq_zero (Nat.le_zero.mp hlen)) hl
  | succ n ih =>
    intro l x hlen hp hl hx
    by_cases hnd : (x :: l).Nodup
    · refine ⟨l, hp, hl, ?_⟩
      have hnd2 : ((x :: l).dropLast).Nodup := hnd.sublist (List.dropLast_sublist _)
      have hlt : ∀ y ∈ (x :: l).dropLast, y < N := fun y hy => hN y (hp.sources y hy)
      have hb := nodup_lt_length_le hnd2 hlt
      simpa using hb
    · obtain ⟨a, l1, l2, l3, hsplit⟩ := exists_dup_split _ hnd
      cases l1 with
      | nil =>
        rw [List.nil_append] at hsplit
        injection hsplit with h1 h2
        subst h1
        have h2b : l = (l2 ++ [x]) ++ l3 := by rw [h2]; simp
        rw [h2b] at hp
        obtain ⟨m, hm1, hm2⟩ := PathTo.split (l2 ++ [x]) hp
        have hxm : x = m := PathTo.concat_eq l2 hm1
        subst hxm
        have hl3 : l3 ≠ [] := by
          intro h0
          subst h0
          exact hx hm2.nil_eq
        refine ih l3 x ?_ hm2 hl3 hx
        have hlb : l.length = l2.length + 1 + l3.length := by
          rw [h2b]; simp; omega
        omega
      | cons w l1 =>
        rw [List.cons_append] at hsplit
        injection hsplit with h1 h2
        subst h1
        have h2b : l = (l1 ++ [a]) ++ ((l2 ++ [a]) ++ l3) := by rw [h2]; simp
        rw [h2b] at hp
        obtain ⟨m1, hm1, hm2⟩ := PathTo.split (l1 ++ [a]) hp
        have he1 : a = m1 := PathTo.concat_eq l1 hm1
        subst he1
        obtain ⟨m2, hm3, hm4⟩ := PathTo.split (l2 ++ [a]) hm2
        have he2 : a = m2 := PathTo.concat_eq l2 hm3
        subst he2
        have hjoin := hm1.append hm4
        have hlb : l.length = l1.length + 1 + l2.length + 1 + l3.length := by
          rw [h2b]; simp; omega
        refine ih (l1 ++ [a] ++ l3) x ?_ hjoin (by simp) hx
        simp
        omega

theorem alreadyDepends_complete {f : Nat → List Nat} {tgt x N : Nat}
    (hN : ∀ i, f i ≠ [] → i < N) {l : List Nat}
    (hp : PathTo f x l tgt) (hl : l ≠ []) (hx : x ≠ tgt) :
    alreadyDepends f tgt N x = true := by
  obtain ⟨m, hm1, hm2, hm3⟩ := pathTo_short hN l.length l x le_rfl hp hl hx
  exact alreadyDepends_of_path m x hm1 hm2 N hm3

theorem pathTo_extend_cases {f f2 : Nat → List Nat} {self lb : Nat}
    (hf2 : ∀ i, f2 i = if i = self then f self ++ [lb] else f i) :
    ∀ {a c2 : Nat} {l : List Nat}, PathTo f2 a l c2 →
      PathTo f a l c2 ∨
      ∃ u v, PathTo f a u self ∧ PathTo f2 lb v c2 ∧ l = u ++ lb :: v := by
  intro a c2 l h
  induction h with
  | nil => exact Or.inl (PathTo.nil _)
  | cons hb hp ih =>
    rename_i a2 b c3 l2
    by_cases ha : a2 = self
    · rw [hf2, if_pos ha, ← ha] at hb
      rcases List.mem_append.mp hb with hb | hb
      · rcases ih with h | ⟨u, v, h1, h2, rfl⟩
        · exact Or.inl (PathTo.cons hb h)
        · exact Or.inr ⟨b :: u, v, PathTo.cons hb h1, h2, rfl⟩
      · have hblb : b = lb := by simpa using hb
        subst hblb
        refine Or.inr ⟨[], l2, ?_, hp, rfl⟩
        rw [ha]
        exact PathTo.nil self
    · rw [hf2, if_neg ha] at hb
      rcases ih with h | ⟨u, v, h1, h2, rfl⟩
      · exact Or.inl (PathTo.cons hb h)
      · exact Or.inr ⟨b :: u, v, PathTo.cons hb h1, h2, rfl⟩

theorem acyclic_extend {f f2 : Nat → List Nat} {self lb : Nat}
    (hf2 : ∀ i, f2 i = if i = self then f self ++ [lb] else f i)
    (hA : Acyclic f) (hne : self ≠ lb)
    (hnp : ∀ l, l ≠ [] → ¬ PathTo f lb l self) : Acyclic f2 := by
  intro a l hcyc
  by_contra hl
  rcases pathTo_extend_cases hf2 hcyc with h | ⟨u, v, h1, h2, rfl⟩
  · exact hl (hA a l h)
  · rcases pathTo_extend_cases hf2 h2 with h | ⟨u2, v2, h3, _, rfl⟩
    · have hj := h.append h1
      by_cases hvu : v ++ u = []
      · rw [hvu] at hj
        exact hne hj.nil_eq.symm
      · exact hnp (v ++ u) hvu hj
    · by_cases hu2 : u2 = []
      · rw [hu2] at h3
        exact hne h3.nil_eq.symm
      · exact hnp u2 hu2 h3

/-! ## `dependLink` preserves the `_depbuilders` invariants -/

theorem depF_support {s : RState} {i : Nat} (h : depF s i ≠ []) :
    i < s.dep.length := by
  by_contra hc
  push_neg at hc
  exact h (by unfold depF; exact List.getD_eq_default _ _ hc)

theorem dependLink_dep_cases (s : RState) (self lb : Nat) :
    (dependLink s self lb).dep = s.dep ∨
    (self ≠ lb ∧ alreadyDepends (depF s) self s.dep.length lb = false ∧
      (depF s self).contains lb = false ∧
      (dependLink s self lb).dep = s.dep.set self (depF s self ++ [lb])) := by
  unfold dependLink
  by_cases h1 : self = lb
  · rw [if_pos h1]; exact Or.inl rfl
  · rw [if_neg h1]
    by_cases h2 : alreadyDepends (depF s) self s.dep.length lb = true
    · rw [if_pos h2]; exact Or.inl rfl
    · rw [if_neg h2]
      by_cases h3 : (depF s self).contains lb = true
      · rw [if_pos h3]; exact Or.inl rfl
      · rw [if_neg h3]
        exact Or.inr ⟨h1, by simpa using h2, by simpa using h3, rfl⟩

theorem pathTo_congr {g1 g2 : Nat → List Nat} (hg : ∀ i, g1 i = g2 i) :
    ∀ {a b : Nat} {l : List Nat}, PathTo g1 a l b → PathTo g2 a l b := by
  intro a b l hp
  induction hp with
  | nil => exact PathTo.nil _
  | cons hb _ ih => exact PathTo.cons (hg _ ▸ hb) ih

/-- The three possible shapes of `depF` after a `dependLink`: unchanged,
unchanged because the target index is out of range, or extended by the new
edge at `self`. -/
theorem dependLink_depF (s : RState) (self lb : Nat) :
    (∀ i, depF (dependLink s self lb) i = depF s i) ∨
    (self ≠ lb ∧ alreadyDepends (depF s) self s.dep.length lb = false ∧
      (depF s self).contains lb = false ∧
      (∀ i, depF (dependLink s self lb) i =
        if i = self then depF s self ++ [lb] else depF s i)) := by
  rcases dependLink_dep_cases s self lb with hd | ⟨hne, hcyc, hmem, hd⟩
  · exact Or.inl (fun i => by unfold depF; rw [hd])
  · by_cases hlen : self < s.dep.length
    · refine Or.inr ⟨hne, hcyc, hmem, ?_⟩
      intro i
      unfold depF
      rw [hd]
      by_cases hi : i = self
      · subst hi; rw [if_pos rfl]; exact getD_set_self _ _ _ _ hlen
      · rw [if_neg hi]
        exact getD_set_ne _ _ _ _ _ (fun hh => hi hh.symm)
    · refine Or.inl ?_
      have hset : s.dep.set self (depF s self ++ [lb]) = s.dep :=
        set_oob _ _ _ (Nat.le_of_not_lt hlen)
      intro i
      unfold depF
      rw [hd, hset]

theorem dependLink_acyclic (s : RState) (self lb : Nat)
    (h : Acyclic (depF s)) : Acyclic (depF (dependLink s self lb)) := by
  rcases dependLink_depF s self lb with hfun | ⟨hne, hcyc, _, hf2⟩
  · intro a l hp
    exact h a l (pathTo_congr hfun hp)
  · have hnp : ∀ l, l ≠ [] → ¬ PathTo (depF s) lb l self := by
      intro l hlne hp
      have hcontra := alreadyDepends_complete (N := s.dep.length)
        (fun i hi => depF_support hi) hp hlne (fun hh => hne hh.symm)
      rw [hcyc] at hcontra
      cases hcontra
    exact acyclic_extend hf2 h hne hnp

theorem dependLink_nodup (s : RState) (self lb : Nat)
    (h : ∀ i, (depF s i).Nodup ∧ i ∉ depF s i) :
    ∀ i, (depF (dependLink s self lb) i).Nodup ∧
      i ∉ depF (dependLink s self lb) i := by
  rcases dependLink_depF s self lb with hfun | ⟨hne, _, hmem, hf2⟩
  · intro i; rw [hfun i]; exact h i
  · intro i
    rw [hf2 i]
    by_cases hi : i = self
    · subst hi
      rw [if_pos rfl]
      have hnodup := (h i).1
      have hself := (h i).2
      have hlbnm := contains_false_not_mem hmem
      constructor
      · rw [List.nodup_append]
        refine ⟨hnodup, List.nodup_singleton lb, ?_⟩
        intro x hx hxl
        rw [List.mem_singleton] at hxl
        subst hxl
        exact hlbnm hx
      · simp only [List.mem_append, List.mem_singleton]
        intro hor
        rcases hor with hor | hor
        · exact hself hor
        · exact hne hor
    · rw [if_neg hi]
      exact h i

theorem dependLink_DepOk (s : RState) (self lb : Nat) (h : DepOk s) :
    DepOk (dependLink s self lb) :=
  ⟨dependLink_acyclic s self lb h.1, dependLink_nodup s self lb h.2⟩

/-! ## Claim C6 -/

/-- Claim C6 counterexample: the input `"3"` is not one of the recognized
LDF modes, yet `validate_ldf_mode` returns `"chain+"` (Python indexes the
mode list with the parsed integer), not the documented default `"chain"`. -/
theorem C6_counterexample :
    validate_ldf_mode (.str "3") = "chain+" ∧
    "3" ∉ LDF_MODES ∧
    validate_ldf_mode (.str "3") ≠ LDF_MODE_DEFAULT := by
  refine ⟨by decide, by decide, by decide⟩

/-- Claim C6 (amended): a string whose stripped, lowercased form is a
recognized mode name is returned in that normalized form; a value that is
an integer (or a string parsing as one) indexes the mode list
`[off, chain, deep, chain+, deep+]` Python-style (negative indices
included) and returns the indexed mode, falling back to the default
`chain` only when the index is out of range; every other value returns the
default.  The result is always a valid mode.  `validate_compat_mode`
returns integer inputs (or integer-parsing strings) in {0,1,2} unchanged
and the default 1 for everything else. -/
theorem C6_validators_amended :
    (∀ s : String, pyLower (pyStrip s) ∈ LDF_MODES →
      validate_ldf_mode (.str s) = pyLower (pyStrip s)) ∧
    (∀ s : String, pyLower (pyStrip s) ∉ LDF_MODES →
      parseIntPy (pyLower (pyStrip s)) = none →
      validate_ldf_mode (.str s) = LDF_MODE_DEFAULT) ∧
    (∀ (s : String) (k : Int), pyLower (pyStrip s) ∉ LDF_MODES →
      parseIntPy (pyLower (pyStrip s)) = some k →
      validate_ldf_mode (.str s) = (pyIndex LDF_MODES k).getD LDF_MODE_DEFAULT) ∧
    (∀ k : Int,
      validate_ldf_mode (.int k) = (pyIndex LDF_MODES k).getD LDF_MODE_DEFAULT) ∧
    (∀ v : PyVal, validate_ldf_mode v ∈ LDF_MODES) ∧
    (∀ k : Int, k ∈ COMPAT_MODES → validate_compat_mode (.int k) = k) ∧
    (∀ k : Int, k ∉ COMPAT_MODES →
      validate_compat_mode (.int k) = COMPAT_MODE_DEFAULT) ∧
    (∀ s : String, parseIntPy s = none →
      validate_compat_mode (.str s) = COMPAT_MODE_DEFAULT) ∧
    (∀ (s : String) (k : Int), parseIntPy s = some k → k ∈ COMPAT_MODES →
      validate_compat_mode (.str s) = k) := by
  refine ⟨?_, ?_, ?_, ?_, ?_, ?_, ?_, ?_, ?_⟩
  · intro s h; simp [validate_ldf_mode, h]
  · intro s h hp; simp [validate_ldf_mode, h, hp]
  · intro s k h hp; simp [validate_ldf_mode, h, hp]
  · intro k; rfl
  · intro v
    cases v with
    | str s =>
      by_cases h : pyLower (pyStrip s) ∈ LDF_MODES
      · simp [validate_ldf_mode, h]
      · cases hp : parseIntPy (pyLower (pyStrip s)) with
        | none => simp [validate_ldf_mode, h, hp]; decide
        | some k =>
          simp only [validate_ldf_mode, if_neg h, hp]
          exact pyIndex_getD_mem (by decide)
    | int k => exact pyIndex_getD_mem (by decide)
  · intro k h; simp [validate_compat_mode, h]
  · intro k h; simp [validate_compat_mode, h]
  · intro s h; simp [validate_compat_mode, h]
  · intro s k h hk; simp [validate_compat_mode, h, hk]

/-- Claim C6 witness: concrete instantiations of the amended theorem. -/
theorem C6_witness :
    validate_ldf_mode (.str " CHAIN ") = "chain" ∧
    validate_ldf_mode (.str "bogus") = LDF_MODE_DEFAULT ∧
    validate_compat_mode (.int 7) = COMPAT_MODE_DEFAULT := by
  refine ⟨C6_validators_amended.1 " CHAIN " (by decide),
    C6_validators_amended.2.1 "bogus" (by decide) (by decide),
    C6_validators_amended.2.2.2.2.2.2.1 7 (by decide)⟩

theorem foldl_append_extends {α β : Type} (f : List α → β → List α)
    (hf : ∀ a x, ∃ t, f a x = a ++ t) (xs : List β) (acc : List α) :
    ∃ t, xs.foldl f acc = acc ++ t := by
  induction xs generalizing acc with
  | nil => exact ⟨[], by simp⟩
  | cons x xs ih =>
    obtain ⟨t1, h1⟩ := hf acc x
    obtain ⟨t2, h2⟩ := ih (f acc x)
    refine ⟨t1 ++ t2, ?_⟩
    rw [List.foldl_cons, h2, h1, List.append_assoc]

theorem mem_foldl_of_step {α β : Type} (f : List α → β → List α)
    (hext : ∀ a x, ∃ t, f a x = a ++ t) {y : α} {x : β}
    (hy : ∀ a, y ∈ f a x) :
    ∀ (xs : List β) (acc : List α), x ∈ xs → y ∈ xs.foldl f acc := by
  intro xs
  induction xs with
  | nil => intro acc h; cases h
  | cons z zs ih =>
    intro acc h
    rcases List.mem_cons.mp h with h | h
    · subst h
      obtain ⟨t, ht⟩ := foldl_append_extends f hext zs (f acc x)
      rw [List.foldl_cons, ht]
      exact List.mem_append_left _ (hy acc)
    · exact ih (f acc z) h

theorem widenStep_extends (c : Ctx) :
    ∀ acc inc, ∃ t, widenStep c acc inc = acc ++ t := by
  intro acc inc
  unfold widenStep
  split
  · split
    · exact ⟨_, by rw [List.append_assoc]⟩
    · exact ⟨[inc], rfl⟩
  · exact ⟨[inc], rfl⟩

theorem mem_widenStep_self (c : Ctx) (inc : String) :
    ∀ acc, inc ∈ widenStep c acc inc := by
  intro acc
  unfold widenStep
  split
  · split
    · exact List.mem_append_left _ (List.mem_append_right _ (by simp))
    · exact List.mem_append_right _ (by simp)
  · exact List.mem_append_right _ (by simp)

theorem mem_widenStep_sibling (c : Ctx) (inc stem ext e : String)
    (hh : isFileWithExt inc c.srcHeaderExt = true)
    (hsplit : splitLastDot inc = some (stem, ext))
    (he : e ∈ c.srcCExt) (hf : c.isfile (stem ++ "." ++ e) = true) :
    ∀ acc, (stem ++ "." ++ e) ∈ widenStep c acc inc := by
  intro acc
  unfold widenStep
  rw [if_pos hh, hsplit]
  refine List.mem_append_right _ (List.mem_map.mpr ⟨e, List.mem_filter.mpr ⟨he, hf⟩, rfl⟩)

theorem orderedInsert_front {α : Type} (r : α → α → Prop) [DecidableRel r] (x : α)
    (hx : ∀ y, r x y) : ∀ l, List.orderedInsert r x l = x :: l := by
  intro l
  cases l with
  | nil => rfl
  | cons y l => simp [List.orderedInsert, hx y]

theorem orderedInsert_concat {α : Type} (r : α → α → Prop) [DecidableRel r] (x : α) :
    ∀ (A B : List α), (∀ a ∈ A, ¬ r x a) → List.orderedInsert r x B = x :: B →
      List.orderedInsert r x (A ++ B) = A ++ x :: B := by
  intro A
  induction A with
  | nil => intro B _ hB; simpa using hB
  | cons a A ih =>
    intro B hA hB
    have hna : ¬ r x a := hA a (by simp)
    simp only [List.cons_append, List.orderedInsert, if_neg hna, List.append_eq]
    rw [ih B (fun y hy => hA y (by simp [hy])) hB]

/-- A stable sort by a two-valued key is the stable partition: elements
satisfying the predicate first, both blocks in original order. -/
theorem insertionSort_boolkey {α : Type} (p : α → Bool) (l : List α) :
    List.insertionSort
        (fun a b => (if p a then 0 else 1 : Nat) ≤ (if p b then 0 else 1)) l
      = l.filter p ++ l.filter (fun a => !p a) := by
  induction l with
  | nil => rfl
  | cons x l ih =>
    simp only [List.insertionSort, ih]
    cases hp : p x with
    | true =>
      rw [orderedInsert_front _ x (fun y => by simp [hp])]
      simp [hp]
    | false =>
      rw [orderedInsert_concat _ x (l.filter p) (l.filter fun a => !p a)
        (fun a ha => by
          have hpa := List.of_mem_filter ha
          simp [hp, hpa])
        (by
          cases hB : l.filter (fun a => !p a) with
          | nil => rfl
          | cons b B2 =>
            have hb : p b = false := by
              have := List.of_mem_filter (l := l) (p := fun a => !p a)
                (a := b) (by rw [hB]; simp)
              simpa using this
            simp [List.orderedInsert, hp, hb])]
      simp [hp]

/-! ## Claim C10 -/

/-- Claim C10: once the registry cache exists, every `GetLibBuilders` call
returns the cached descriptors stably re-sorted with already-dependent
descriptors first; consequently the first-match ownership mapping can
change between calls within one run, favoring libraries already drawn into
the graph — witnessed by a header contained in two (nested) library roots
whose owner flips from the first to the second library once the second is
marked dependent. -/
theorem C10_registry_resort :
    (∀ (c : Ctx) (s : RState),
      c.getLibBuilders s =
        (List.range c.regs.length).filter (fun i => isDepF s i) ++
          (List.range c.regs.length).filter (fun i => !isDepF s i)) ∧
    (ownerOf ctx10 (RState.init 3) "/A/sub/x.h" = some 0 ∧
     isDepF (RState.init 3) 1 = false ∧
     ownerOf ctx10 s10b "/A/sub/x.h" = some 1 ∧
     isDepF s10b 1 = true ∧
     (ctx10.conf 0).containsPath "/A/sub/x.h" = true ∧
     (ctx10.conf 1).containsPath "/A/sub/x.h" = true) := by
  refine ⟨?_, by decide, by decide, by decide, by decide, by decide, by decide⟩
  intro c s
  have h := insertionSort_boolkey (fun i => isDepF s i) (List.range c.regs.length)
  simpa only [Ctx.getLibBuilders, depKey] using h

theorem find?_first {α : Type} (p : α → Bool) :
    ∀ (l : List α) (a : α), l.find? p = some a →
      ∃ l1 l2, l = l1 ++ a :: l2 ∧ (∀ x ∈ l1, p x = false) ∧ p a = true := by
  intro l
  induction l with
  | nil => intro a h; simp [List.find?] at h
  | cons x l ih =>
    intro a h
    cases hx : p x with
    | true =>
      rw [List.find?_cons_of_pos _ hx] at h
      cases h
      exact ⟨[], l, rfl, by simp, hx⟩
    | false =>
      rw [List.find?_cons_of_neg _ (by simp [hx])] at h
      obtain ⟨l1, l2, rfl, h1, h2⟩ := ih a h
      refine ⟨x :: l1, l2, rfl, ?_, h2⟩
      intro y hy
      rcases List.mem_cons.mp hy with rfl | hy
      · exact hx
      · exact h1 y hy

/-! ## Association-list lemmas for the include-ownership grouping -/

theorem addToMap_cases :
    ∀ (m : List (Nat × List String)) (i : Nat) (p : String) (j : Nat)
      (fs : List String), (j, fs) ∈ addToMap m i p →
      (j, fs) ∈ m ∨ (j = i ∧ (fs = [p] ∨ ∃ pre, (i, pre) ∈ m ∧ fs = pre ++ [p])) := by
  intro m
  induction m with
  | nil =>
    intro i p j fs h
    simp only [addToMap, List.mem_singleton, Prod.mk.injEq] at h
    exact Or.inr ⟨h.1, Or.inl h.2⟩
  | cons hd m ih =>
    intro i p j fs h
    obtain ⟨k, fs0⟩ := hd
    simp only [addToMap] at h
    by_cases hk : k = i
    · rw [if_pos hk] at h
      rcases List.mem_cons.mp h with h | h
      · obtain ⟨h1, h2⟩ := Prod.mk.injEq .. ▸ h
        subst hk
        exact Or.inr ⟨h1.symm ▸ rfl, Or.inr ⟨fs0, by simp, h2.symm ▸ rfl⟩⟩
      · exact Or.inl (List.mem_cons_of_mem _ h)
    · rw [if_neg hk] at h
      rcases List.mem_cons.mp h with h | h
      · exact Or.inl (h ▸ List.mem_cons_self _ _)
      · rcases ih i p j fs h with h2 | ⟨h2, h3⟩
        · exact Or.inl (List.mem_cons_of_mem _ h2)
        · rcases h3 with h3 | ⟨pre, hpre, hfs⟩
          · exact Or.inr ⟨h2, Or.inl h3⟩
          · exact Or.inr ⟨h2, Or.inr ⟨pre, List.mem_cons_of_mem _ hpre, hfs⟩⟩

theorem addToMap_mono :
    ∀ (m : List (Nat × List String)) (i : Nat) (p : String) (j : Nat)
      (fs : List String), (j, fs) ∈ m →
      ∃ fs2, (j, fs2) ∈ addToMap m i p ∧ fs ⊆ fs2 := by
  intro m
  induction m with
  | nil => intro i p j fs h; cases h
  | cons hd m ih =>
    intro i p j fs h
    obtain ⟨k, fs0⟩ := hd
    rcases List.mem_cons.mp h with h | h
    · obtain ⟨h1, h2⟩ := Prod.mk.injEq .. ▸ h
      subst h1; subst h2
      by_cases hk : j = i
      · refine ⟨fs ++ [p], ?_, by simp⟩
        simp [addToMap, hk]
      · refine ⟨fs, ?_, by simp⟩
        simp [addToMap, hk]
    · by_cases hk : k = i
      · refine ⟨fs, ?_, by simp⟩
        simp only [addToMap, if_pos hk]
        exact List.mem_cons_of_mem _ h
      · obtain ⟨fs2, h2, h3⟩ := ih i p j fs h
        refine ⟨fs2, ?_, h3⟩
        simp only [addToMap, if_neg hk]
        exact List.mem_cons_of_mem _ h2

theorem addToMap_hit :
    ∀ (m : List (Nat × List String)) (i : Nat) (p : String),
      ∃ fs, (i, fs) ∈ addToMap m i p ∧ p ∈ fs := by
  intro m
  induction m with
  | nil => intro i p; exact ⟨[p], by simp [addToMap], by simp⟩
  | cons hd m ih =>
    intro i p
    obtain ⟨k, fs0⟩ := hd
    by_cases hk : k = i
    · refine ⟨fs0 ++ [p], ?_, by simp⟩
      subst hk
      simp [addToMap]
    · obtain ⟨fs, h1, h2⟩ := ih i p
      refine ⟨fs, ?_, h2⟩
      simp only [addToMap, if_neg hk]
      exact List.mem_cons_of_mem _ h1

theorem mapKeys_addToMap :
    ∀ (m : List (Nat × List String)) (i : Nat) (p : String),
      mapKeys (addToMap m i p) =
        if i ∈ mapKeys m then mapKeys m else mapKeys m ++ [i] := by
  intro m
  induction m with
  | nil => intro i p; simp [addToMap, mapKeys]
  | cons hd m ih =>
    intro i p
    obtain ⟨k, fs0⟩ := hd
    by_cases hk : k = i
    · subst hk
      simp [addToMap, mapKeys]
    · have h1 : mapKeys ((k, fs0) :: addToMap m i p) = k :: mapKeys (addToMap m i p) := rfl
      have h2 : mapKeys ((k, fs0) :: m) = k :: mapKeys m := rfl
      simp only [addToMap, if_neg hk, h1, ih i p, h2]
      by_cases hi : i ∈ mapKeys m
      · rw [if_pos hi, if_pos (List.mem_cons_of_mem _ hi)]
      · rw [if_neg hi, if_neg (by
          intro hmem
          rcases List.mem_cons.mp hmem with h | h
          · exact hk h.symm
          · exact hi h), List.cons_append]

theorem buildIncMap_sound (c : Ctx) (s : RState) :
    ∀ (incs : List String) (m : List (Nat × List String)),
      (∀ pr ∈ m, ∀ p ∈ pr.2, ownerOf c s p = some pr.1) →
      ∀ pr ∈ incs.foldl (fun m p =>
          match ownerOf c s p with
          | some i => addToMap m i p
          | none => m) m, ∀ p ∈ pr.2, ownerOf c s p = some pr.1 := by
  intro incs
  induction incs with
  | nil => intro m hm; exact hm
  | cons inc incs ih =>
    intro m hm
    simp only [List.foldl_cons]
    cases ho : ownerOf c s inc with
    | none => exact ih m hm
    | some i =>
      refine ih (addToMap m i inc) ?_
      intro pr hpr p hp
      obtain ⟨j, fs⟩ := pr
      rcases addToMap_cases m i inc j fs hpr with h | ⟨rfl, h⟩
      · exact hm (j, fs) h p hp
      · rcases h with rfl | ⟨pre, hpre, rfl⟩
        · rw [List.mem_singleton.mp hp]; exact ho
        · rcases List.mem_append.mp hp with hp | hp
          · exact hm (j, pre) hpre p hp
          · rw [List.mem_singleton.mp hp]; exact ho

theorem buildIncMap_keys_nodup (c : Ctx) (s : RState) :
    ∀ (incs : List String) (m : List (Nat × List String)),
      (mapKeys m).Nodup →
      (mapKeys (incs.foldl (fun m p =>
          match ownerOf c s p with
          | some i => addToMap m i p
          | none => m) m)).Nodup := by
  intro incs
  induction incs with
  | nil => intro m hm; exact hm
  | cons inc incs ih =>
    intro m hm
    simp only [List.foldl_cons]
    cases ho : ownerOf c s inc with
    | none => exact ih m hm
    | some i =>
      refine ih (addToMap m i inc) ?_
      rw [mapKeys_addToMap]
      by_cases hi : i ∈ mapKeys m
      · simpa [hi] using hm
      · rw [if_neg hi]
        simpa [List.nodup_append, hi] using hm

theorem buildIncMap_fold_mono (c : Ctx) (s : RState) :
    ∀ (incs : List String) (m : List (Nat × List String)) (j : Nat)
      (fs : List String), (j, fs) ∈ m →
      ∃ fs2, (j, fs2) ∈ incs.foldl (fun m p =>
          match ownerOf c s p with
          | some i => addToMap m i p
          | none => m) m ∧ fs ⊆ fs2 := by
  intro incs
  induction incs with
  | nil => intro m j fs h; exact ⟨fs, h, by simp⟩
  | cons inc incs ih =>
    intro m j fs h
    simp only [List.foldl_cons]
    cases ho : ownerOf c s inc with
    | none => exact ih m j fs h
    | some i =>
      obtain ⟨fs1, h1, hsub1⟩ := addToMap_mono m i inc j fs h
      obtain ⟨fs2, h2, hsub2⟩ := ih (addToMap m i inc) j fs1 h1
      exact ⟨fs2, h2, fun x hx => hsub2 (hsub1 hx)⟩

theorem buildIncMap_covers (c : Ctx) (s : RState) :
    ∀ (incs : List String) (m : List (Nat × List String)) (p : String) (i : Nat),
      p ∈ incs → ownerOf c s p = some i →
      ∃ fs, (i, fs) ∈ incs.foldl (fun m p =>
          match ownerOf c s p with
          | some i => addToMap m i p
          | none => m) m ∧ p ∈ fs := by
  intro incs
  induction incs with
  | nil => intro m p i h; cases h
  | cons inc incs ih =>
    intro m p i hp ho
    simp only [List.foldl_cons]
    rcases List.mem_cons.mp hp with rfl | hp
    · rw [ho]
      obtain ⟨fs, h1, h2⟩ := addToMap_hit m i p
      obtain ⟨fs2, h3, hsub⟩ := buildIncMap_fold_mono c s incs _ i fs h1
      exact ⟨fs2, h3, hsub h2⟩
    · cases ho2 : ownerOf c s inc with
      | none => exact ih m p i hp ho
      | some i2 => exact ih (addToMap m i2 inc) p i hp ho

/-! ## Claim C4 -/

/-- Claim C4 counterexample: the registry holds one library rooted at `/A`
whose resolved include/source directory is `/A/src`.  The header `/A/x.h`
lies under no library's include/source directory (the spec-side first-match
is `none`), yet the code groups it under that library, because
`__contains__` tests the library ROOT path, not the resolved
include/source directories. -/
theorem C4_counterexample :
    buildIncMap ctx4 (RState.init 2) ["/A/x.h"] = [(0, ["/A/x.h"])] ∧
    specOwnerByIncludeDirs ctx4 (RState.init 2) "/A/x.h" = none ∧
    (ctx4.conf 0).includeDirs = ["/A/src"] ∧
    (ctx4.conf 0).path = "/A" := by
  refine ⟨by decide, by decide, by decide, by decide⟩

/-- Claim C4 (amended): for every header discovered during include
scanning, the owning library chosen is the first library in (re-sorted)
registry order whose ROOT path, separator appended, is a string prefix of
the header's path; the header is grouped under that single owner (the
grouped map's keys are duplicate-free and every grouped file maps back to
exactly its owner) and no later-matching library is linked for it. -/
theorem C4_owner_mapping_amended (c : Ctx) (s : RState) :
    (∀ (p : String) (i : Nat), ownerOf c s p = some i →
      ∃ l1 l2, c.getLibBuilders s = l1 ++ i :: l2 ∧
        (∀ j ∈ l1, (c.conf j).containsPath p = false) ∧
        (c.conf i).containsPath p = true) ∧
    (∀ (incs : List String) (pr : Nat × List String),
      pr ∈ buildIncMap c s incs → ∀ p ∈ pr.2, ownerOf c s p = some pr.1) ∧
    (∀ (incs : List String) (p : String) (i : Nat), p ∈ incs →
      ownerOf c s p = some i →
      ∃ fs, (i, fs) ∈ buildIncMap c s incs ∧ p ∈ fs) ∧
    (∀ incs : List String, (mapKeys (buildIncMap c s incs)).Nodup) := by
  refine ⟨?_, ?_, ?_, ?_⟩
  · intro p i h
    exact find?_first _ _ _ h
  · intro incs pr hpr p hp
    exact buildIncMap_sound c s incs [] (by simp) pr hpr p hp
  · intro incs p i hp ho
    exact buildIncMap_covers c s incs [] p i hp ho
  · intro incs
    exact buildIncMap_keys_nodup c s incs [] (by simp [mapKeys])

/-- Claim C4 witness: the amended theorem applied to the concrete C4
context, showing the grouped map's single entry maps its file back to the
first root-path-containing library. -/
theorem C4_witness :
    ownerOf ctx4 (RState.init 2) "/A/x.h" = some 0 ∧
    (∃ fs, (0, fs) ∈ buildIncMap ctx4 (RState.init 2) ["/A/x.h"] ∧ "/A/x.h" ∈ fs) := by
  refine ⟨by decide, ?_⟩
  exact (C4_owner_mapping_amended ctx4 (RState.init 2)).2.2.1 ["/A/x.h"] "/A/x.h" 0
    (by simp) (by decide)

/-- Every fatal result of the resolver machine carries the
missing-dependency message of `LibBuilderBase.process_dependencies`:
no other resolver step produces a fatal exit. -/
theorem run_fatal_msg (c : Ctx) :
    ∀ (fuel : Nat) (call : Call) (s : RState) (m : String),
      run c fuel call s = .fatal m → ∃ dn ln, m = errMsg dn ln := by
  intro fuel
  induction fuel with
  | zero => intro call s m h; simp [run] at h
  | succ fuel ih =>
    intro call s m h
    cases call with
    | depRec self lb files =>
      simp only [run] at h
      exact ih _ _ _ h
    | searchDeps self files =>
      simp only [run] at h
      by_cases hd : isDepF s self = true
      · rw [if_pos hd] at h
        exact ih _ _ _ h
      · rw [if_neg hd] at h
        cases hr : run c fuel (.procDeps self)
            { s with isDep := s.isDep.set self true } with
        | ok s3 =>
          simp only [hr] at h
          exact ih _ _ _ h
        | fatal m2 =>
          simp only [hr] at h
          injection h with h2
          subst h2
          exact ih _ _ _ hr
        | fuelOut => simp only [hr] at h; exact RunRes.noConfusion h
    | scanLink self files =>
      simp only [run] at h
      by_cases hoff : c.effMode self = "off"
      · rw [if_pos hoff] at h
        exact RunRes.noConfusion h
      · rw [if_neg hoff] at h
        exact ih _ _ _ h
    | procDeps self =>
      simp only [run] at h
      by_cases hp : c.isProj self = true
      · rw [if_pos hp] at h
        by_cases hl : c.libDeps.isEmpty = true
        · rw [if_pos hl] at h
          exact RunRes.noConfusion h
        · rw [if_neg hl] at h
          exact ih _ _ _ h
      · rw [if_neg hp] at h
        by_cases hl : (c.conf self).deps.isEmpty = true
        · rw [if_pos hl] at h
          exact RunRes.noConfusion h
        · rw [if_neg hl] at h
          exact ih _ _ _ h
    | procDepsLoop self items =>
      cases items with
      | nil =>
        simp only [run] at h
        exact RunRes.noConfusion h
      | cons it rest =>
        simp only [run] at h
        by_cases hs : skipItem c it = true
        · rw [if_pos hs] at h
          exact ih _ _ _ h
        · rw [if_neg hs] at h
          cases hf : findDep c s it with
          | some lb =>
            simp only [hf] at h
            cases hr : run c fuel (.depRec self lb none) s with
            | ok s3 =>
              simp only [hr] at h
              exact ih _ _ _ h
            | fatal m2 =>
              simp only [hr] at h
              injection h with h2
              subst h2
              exact ih _ _ _ hr
            | fuelOut => simp only [hr] at h; exact RunRes.noConfusion h
          | none =>
            simp only [hf] at h
            injection h with h2
            exact ⟨it.name, (c.conf self).name, h2.symm⟩
    | projDepsLoop self dirs uris =>
      cases uris with
      | nil =>
        simp only [run] at h
        exact RunRes.noConfusion h
      | cons uri rest =>
        simp only [run] at h
        cases ht : projTarget c s dirs uri with
        | some lb =>
          simp only [ht] at h
          by_cases hc : (depF s self).contains lb = true
          · rw [if_pos hc] at h
            exact ih _ _ _ h
          · rw [if_neg hc] at h
            cases hr : run c fuel (.depRec self lb none) s with
            | ok s3 =>
              simp only [hr] at h
              exact ih _ _ _ h
            | fatal m2 =>
              simp only [hr] at h
              injection h with h2
              subst h2
              exact ih _ _ _ hr
            | fuelOut => simp only [hr] at h; exact RunRes.noConfusion h
        | none =>
          simp only [ht] at h
          exact ih _ _ _ h
    | linkLoop self pairs =>
      cases pairs with
      | nil =>
        simp only [run] at h
        exact RunRes.noConfusion h
      | cons pr rest =>
        obtain ⟨lb, fs⟩ := pr
        simp only [run] at h
        cases hr : run c fuel (.depRec self lb (some fs)) s with
        | ok s3 =>
          simp only [hr] at h
          exact ih _ _ _ h
        | fatal m2 =>
          simp only [hr] at h
          injection h with h2
          subst h2
          exact ih _ _ _ hr
        | fuelOut => simp only [hr] at h; exact RunRes.noConfusion h

/-! ## Claim C1 -/

/-- Claim C1 (amended): a manifest-declared dependency of a LIBRARY that
passes the environment platform/framework filter and matches no registry
entry by name and declaration compatibility aborts the run fatally with a
message naming the missing dependency and its requester, and every fatal
exit of the resolver carries exactly that message shape (no other
condition is fatal).  The PROJECT root's `LIB_DEPS` resolution, however,
is never fatal: a URI that neither the storage lookup nor the name
fallback resolves is silently skipped and the loop moves on. -/
theorem C1_missing_dep_amended :
    (∀ (c : Ctx) (fuel self : Nat) (it : DepDecl) (rest : List DepDecl)
      (s : RState), skipItem c it = false → findDep c s it = none →
      run c (fuel + 1) (.procDepsLoop self (it :: rest)) s =
        .fatal (errMsg it.name (c.conf self).name)) ∧
    (∀ (c : Ctx) (fuel : Nat) (call : Call) (s : RState) (m : String),
      run c fuel call s = .fatal m → ∃ dn ln, m = errMsg dn ln) ∧
    (∀ (c : Ctx) (fuel self : Nat) (dirs : List String) (uri : String)
      (rest : List String) (s : RState), projTarget c s dirs uri = none →
      run c (fuel + 1) (.projDepsLoop self dirs (uri :: rest)) s =
        run c fuel (.projDepsLoop self dirs rest) s) := by
  refine ⟨?_, run_fatal_msg, ?_⟩
  · intro c fuel self it rest s hskip hfind
    have hns : ¬ (skipItem c it = true) := by simp [hskip]
    simp only [run]
    rw [if_neg hns, hfind]
  · intro c fuel self dirs uri rest s hT
    simp only [run, hT]

/-- Claim C1 witness: the fatal branch fires for the concrete library `L`
declaring the unresolvable dependency `missing`, and the project-side skip
rule applied to the `ctx1` scenario. -/
theorem C1_witness :
    run ctxC1w 1 (.procDepsLoop 0 [⟨"missing", none, none⟩]) (RState.init 2) =
      .fatal (errMsg "missing" "L") ∧
    run ctx1 3 (.projDepsLoop 0 [] ["missing"]) (RState.init 1) =
      run ctx1 2 (.projDepsLoop 0 [] []) (RState.init 1) := by
  constructor
  · exact C1_missing_dep_amended.1 ctxC1w 0 0 ⟨"missing", none, none⟩ []
      (RState.init 2) (by decide) (by decide)
  · exact C1_missing_dep_amended.2.2 ctx1 2 0 [] "missing" [] (RState.init 1)
      (by decide)

/-! ## Claim C1 (concrete part) -/

/-- Claim C1 counterexample: a project whose `LIB_DEPS` names `missing`,
with an empty registry (so neither the storage lookup nor a name match can
resolve it), completes resolution with a normal result — no fatal exit —
directly contradicting the claim that this situation terminates the run
with a non-zero status. -/
theorem C1_counterexample :
    ctx1.libDeps = ["missing"] ∧ ctx1.regs = [] ∧
    c1res = .ok c1st ∧ c1res.isFatal = false := by
  refine ⟨rfl, rfl, by decide, by decide⟩

/-! ## Saturated build re-entry -/

theorem set_eq_of_getD {α : Type} (l : List α) (i : Nat) (v d : α)
    (h : l.getD i d = v) : l.set i v = l := by
  rw [← h]
  exact set_getD_self l i d

theorem mergeKeys_absorbed (s : RState) (self lb : Nat)
    (h : absorbsE (envF s self) (envF s lb)) : mergeKeys s self lb = s := by
  unfold mergeKeys
  rw [show mergeEntry (envF s self) (envF s lb) = envF s self from h,
      set_eq_of_getD s.envs self (envF s self) BEnvEntry.empty rfl]

theorem addCpp_absorbed (st : RState) (self : Nat) (dirs : List String)
    (h : appendUnique (envF st self).cpp dirs = (envF st self).cpp) :
    addCpp st self dirs = st := by
  have h2 : ({ envF st self with cpp := appendUnique (envF st self).cpp dirs })
      = envF st self := by
    rw [h]
  simp only [addCpp]
  rw [h2, set_eq_of_getD st.envs self (envF st self) BEnvEntry.empty rfl]

theorem foldl_addCpp_absorbed (c : Ctx) :
    ∀ (L : List Nat) (st : RState) (self : Nat),
      (∀ j ∈ L, appendUnique (envF st self).cpp (c.conf j).includeDirs =
        (envF st self).cpp) →
      L.foldl (fun st2 lb => addCpp st2 self (c.conf lb).includeDirs) st = st := by
  intro L
  induction L with
  | nil => intro st self _; rfl
  | cons j L ih =>
    intro st self hAll
    simp only [List.foldl_cons]
    rw [addCpp_absorbed st self _ (hAll j (by simp))]
    exact ih st self (fun k hk => hAll k (by simp [hk]))

/-- A `build` call on a saturated state is the identity: it returns the
state unchanged and collects no artifacts, because every re-merge is
absorbed and the built-guard fires before the descriptor's own artifact
step. -/
theorem buildRun_saturated (c : Ctx) :
    ∀ (fuel : Nat) (b : BCall) (s : RState) (r : RState × List Nat),
      Saturated c s → bcallOK c s b →
      buildRun c fuel b s = some r → r = (s, []) := by
  intro fuel
  induction fuel with
  | zero => intro b s r _ _ h; simp [buildRun] at h
  | succ fuel ih =>
    intro b s r hSat hOK h
    cases b with
    | one self =>
      simp only [buildRun] at h
      have hs0 : (if c.isProj self = true then
          addCpp { s with built := s.built.set self true } self
            (c.conf self).includeDirs
        else s) = s := by
        by_cases hp : c.isProj self = true
        · rw [if_pos hp]
          obtain ⟨hblen, helen, habs⟩ := hOK.2 hp
          have hb : s.built.set self true = s.built :=
            set_eq_of_getD _ _ _ false hOK.1
          rw [show ({ s with built := s.built.set self true }) = s from by rw [hb]]
          exact addCpp_absorbed s self _ habs
        · rw [if_neg hp]
      rw [hs0] at h
      cases hk : buildRun c fuel (.kids self (depF s self)) s with
      | none => simp only [hk] at h; exact Option.noConfusion h
      | some p =>
        obtain ⟨s1, a1⟩ := p
        have hp2 := ih (.kids self (depF s self)) s (s1, a1) hSat
          (fun j hj => hSat.1 self j hj) hk
        injection hp2 with hA hB
        simp only [hk] at h
        rw [hA, hB] at h
        rw [foldl_addCpp_absorbed c (circF s self) s self
          (fun j hj => hSat.2 self j hj), if_pos hOK.1] at h
        injection h with h2
        exact h2.symm
    | kids self rest =>
      cases rest with
      | nil =>
        simp only [buildRun] at h
        injection h with h2
        exact h2.symm
      | cons lb rest2 =>
        simp only [buildRun] at h
        cases h1 : buildRun c fuel (.one lb) s with
        | none => simp only [h1] at h; exact Option.noConfusion h
        | some p =>
          obtain ⟨s1, a1⟩ := p
          have hp1 := ih (.one lb) s (s1, a1) hSat (hOK lb (by simp)).1 h1
          injection hp1 with hA hB
          simp only [h1] at h
          rw [hA, hB, mergeKeys_absorbed s self lb (hOK lb (by simp)).2] at h
          cases h2 : buildRun c fuel (.kids self rest2) s with
          | none => simp only [h2] at h; exact Option.noConfusion h
          | some q =>
            obtain ⟨s3, a2⟩ := q
            have hq := ih (.kids self rest2) s (s3, a2) hSat
              (fun j hj => hOK j (by simp [hj])) h2
            injection hq with hA2 hB2
            simp only [h2] at h
            rw [hA2, hB2] at h
            injection h with h3
            exact h3.symm

/-- Claim C2 (amended): calling `build` again on a descriptor that is
already built and whose environment is saturated (every dependency's and
back-edge's flags already merged — the state a completed first build
leaves) returns the state unchanged and the EMPTY artifact list — not the
artifact list the first call computed, which contained the descriptor's
own archive.  The flag re-merging and child re-traversal still execute,
but with append-unique semantics they change nothing. -/
theorem C2_build_reentry_amended (c : Ctx) (fuel self : Nat) (s : RState)
    (r : RState × List Nat) (hSat : Saturated c s) (hOK : NodeOK c s self)
    (h : buildRun c fuel (.one self) s = some r) : r = (s, []) :=
  buildRun_saturated c fuel (.one self) s r hSat hOK h

/-- Claim C2 witness: the amended theorem applied to the state left by the
first build of the concrete leaf library, whose saturation is discharged
explicitly. -/
theorem C2_witness : ((c2st, ([] : List Nat)) = (c2st, [])) := by
  have hdep : ∀ i, depF c2st i = [] := by
    have hd : c2st.dep = [[], []] := by decide
    intro i
    unfold depF
    rw [hd]
    match i with
    | 0 => rfl
    | 1 => rfl
    | n + 2 => rfl
  have hcirc : ∀ i, circF c2st i = [] := by
    have hc : c2st.circ = [[], []] := by decide
    intro i
    unfold circF
    rw [hc]
    match i with
    | 0 => rfl
    | 1 => rfl
    | n + 2 => rfl
  refine C2_build_reentry_amended ctx2 3 0 c2st (c2st, []) ⟨?_, ?_⟩ ?_ (by decide)
  · intro i j hj
    rw [hdep i] at hj
    cases hj
  · intro i j hj
    rw [hcirc i] at hj
    cases hj
  · exact ⟨by decide, fun hp => absurd hp (by decide)⟩

/-! ## Claim C2 (concrete part) -/

/-- Claim C2 counterexample: a single already-archiving leaf library.  The
first `build` call returns an artifact list with its archive; the second
call on the same (now built) descriptor returns the empty list, not the
list the first call computed — the early-return guard returns the freshly
accumulated child artifacts, which exclude the descriptor's own. -/
theorem C2_counterexample :
    c2first = some (c2st, [0]) ∧
    c2second = some (c2st, []) ∧
    ([0] : List Nat) ≠ [] := by
  refine ⟨by decide, by decide, by decide⟩

theorem getD_replicate {α : Type} (d : α) :
    ∀ (n i : Nat), (List.replicate n d).getD i d = d := by
  intro n
  induction n with
  | zero => intro i; rfl
  | succ n ih =>
    intro i
    cases i with
    | zero => rfl
    | succ i => exact ih i

theorem depF_init (n i : Nat) : depF (RState.init n) i = [] :=
  getD_replicate [] n i

theorem DepOk_init (n : Nat) : DepOk (RState.init n) := by
  constructor
  · intro a l hp
    cases hp with
    | nil => rfl
    | cons hb _ =>
      rw [depF_init] at hb
      cases hb
  · intro i
    rw [depF_init]
    exact ⟨List.nodup_nil, by simp⟩

/-- The resolver machine preserves the `_depbuilders` invariants through
every step: the only mutation of the relation is `dependLink`. -/
theorem run_DepOk (c : Ctx) :
    ∀ (fuel : Nat) (call : Call) (s s2 : RState),
      run c fuel call s = .ok s2 → DepOk s → DepOk s2 := by
  intro fuel
  induction fuel with
  | zero => intro call s s2 h; simp [run] at h
  | succ fuel ih =>
    intro call s s2 h hInv
    cases call with
    | depRec self lb files =>
      simp only [run] at h
      exact ih _ _ _ h (dependLink_DepOk s self lb hInv)
    | searchDeps self files =>
      simp only [run] at h
      by_cases hd : isDepF s self = true
      · rw [if_pos hd] at h
        exact ih _ _ _ h hInv
      · rw [if_neg hd] at h
        cases hr : run c fuel (.procDeps self) { s with isDep := s.isDep.set self true } with
        | ok s3 =>
          simp only [hr] at h
          exact ih _ _ _ h (ih _ _ _ hr hInv)
        | fatal m => simp only [hr] at h; exact RunRes.noConfusion h
        | fuelOut => simp only [hr] at h; exact RunRes.noConfusion h
    | scanLink self files =>
      simp only [run] at h
      by_cases hoff : c.effMode self = "off"
      · rw [if_pos hoff] at h
        injection h with h2
        subst h2
        exact hInv
      · rw [if_neg hoff] at h
        exact ih _ _ _ h hInv
    | procDeps self =>
      simp only [run] at h
      by_cases hp : c.isProj self = true
      · rw [if_pos hp] at h
        by_cases hl : c.libDeps.isEmpty = true
        · rw [if_pos hl] at h
          injection h with h2
          subst h2
          exact hInv
        · rw [if_neg hl] at h
          exact ih _ _ _ h hInv
      · rw [if_neg hp] at h
        by_cases hl : (c.conf self).deps.isEmpty = true
        · rw [if_pos hl] at h
          injection h with h2
          subst h2
          exact hInv
        · rw [if_neg hl] at h
          exact ih _ _ _ h hInv
    | procDepsLoop self items =>
      cases items with
      | nil =>
        simp only [run] at h
        injection h with h2
        subst h2
        exact hInv
      | cons it rest =>
        simp only [run] at h
        by_cases hs : skipItem c it = true
        · rw [if_pos hs] at h
          exact ih _ _ _ h hInv
        · rw [if_neg hs] at h
          cases hf : findDep c s it with
          | some lb =>
            simp only [hf] at h
            cases hr : run c fuel (.depRec self lb none) s with
            | ok s3 =>
              simp only [hr] at h
              exact ih _ _ _ h (ih _ _ _ hr hInv)
            | fatal m => simp only [hr] at h; exact RunRes.noConfusion h
            | fuelOut => simp only [hr] at h; exact RunRes.noConfusion h
          | none =>
            simp only [hf] at h
            exact RunRes.noConfusion h
    | projDepsLoop self dirs uris =>
      cases uris with
      | nil =>
        simp only [run] at h
        injection h with h2
        subst h2
        exact hInv
      | cons uri rest =>
        simp only [run] at h
        cases ht : projTarget c s dirs uri with
        | some lb =>
          simp only [ht] at h
          by_cases hc : (depF s self).contains lb = true
          · rw [if_pos hc] at h
            exact ih _ _ _ h hInv
          · rw [if_neg hc] at h
            cases hr : run c fuel (.depRec self lb none) s with
            | ok s3 =>
              simp only [hr] at h
              exact ih _ _ _ h (ih _ _ _ hr hInv)
            | fatal m => simp only [hr] at h; exact RunRes.noConfusion h
            | fuelOut => simp only [hr] at h; exact RunRes.noConfusion h
        | none =>
          simp only [ht] at h
          exact ih _ _ _ h hInv
    | linkLoop self pairs =>
      cases pairs with
      | nil =>
        simp only [run] at h
        injection h with h2
        subst h2
        exact hInv
      | cons pr rest =>
        obtain ⟨lb, fs⟩ := pr
        simp only [run] at h
        cases hr : run c fuel (.depRec self lb (some fs)) s with
        | ok s3 =>
          simp only [hr] at h
          exact ih _ _ _ h (ih _ _ _ hr hInv)
        | fatal m => simp only [hr] at h; exact RunRes.noConfusion h
        | fuelOut => simp only [hr] at h; exact RunRes.noConfusion h

/-! ## Claim C3 -/

/-- Claim C3: in the mutual-inclusion scenario (A's sources include B's
header and vice versa, both libraries scanning in `deep` mode), resolving
from A terminates within the given fuel yielding B (index 1) in A's
`_depbuilders` and A (index 0) in B's `_circular_deps`, and the resulting
dependent relation is acyclic; moreover every `depend_recursive` link
step preserves acyclicity of the `_depbuilders` relation on every state,
because a direct edge is replaced by a `_circular_deps` back-edge exactly
when the root occurs in the transitive closure of the candidate's existing
dependents. -/
theorem C3_cycle_handling :
    (c3res = .ok c3st ∧ 1 ∈ depF c3st 0 ∧ 0 ∈ circF c3st 1 ∧
      Acyclic (depF c3st)) ∧
    (∀ (s : RState) (self lb : Nat), Acyclic (depF s) →
      Acyclic (depF (dependLink s self lb))) := by
  constructor
  · refine ⟨by decide, by decide, by decide, ?_⟩
    exact (run_DepOk ctx3 25 (.searchDeps 0 none) (RState.init 3) c3st
      (by decide) (DepOk_init 3)).1
  · exact fun s self lb h => dependLink_acyclic s self lb h

/-- Claim C3 witness: the link-step preservation applied to the clean
two-library state. -/
theorem C3_witness : Acyclic (depF (dependLink (RState.init 3) 0 1)) :=
  C3_cycle_handling.2 (RState.init 3) 0 1 (DepOk_init 3).1

/-! ## Claim C8 -/

/-- Claim C8: `_depbuilders` never holds a duplicate reference and never
holds the builder itself; each `depend_recursive` link step preserves this
(self-links are no-ops, already-present candidates are not re-appended),
and an entire resolver run from any state satisfying the documented
invariants ends in a state still satisfying them. -/
theorem C8_dep_invariant :
    (∀ (s : RState) (self lb : Nat),
      (∀ i, (depF s i).Nodup ∧ i ∉ depF s i) →
      ∀ i, (depF (dependLink s self lb) i).Nodup ∧
        i ∉ depF (dependLink s self lb) i) ∧
    (∀ (c : Ctx) (fuel : Nat) (call : Call) (s s2 : RState),
      run c fuel call s = .ok s2 → DepOk s →
      ∀ i, (depF s2 i).Nodup ∧ i ∉ depF s2 i) := by
  constructor
  · exact fun s self lb h => dependLink_nodup s self lb h
  · exact fun c fuel call s s2 h hInv => (run_DepOk c fuel call s s2 h hInv).2

/-- Claim C8 witness: both parts applied to the concrete two-library
resolution. -/
theorem C8_witness :
    ((depF (dependLink (RState.init 3) 0 1) 0).Nodup ∧
      0 ∉ depF (dependLink (RState.init 3) 0 1) 0) ∧
    ((depF c3st 0).Nodup ∧ 0 ∉ depF c3st 0) :=
  ⟨C8_dep_invariant.1 (RState.init 3) 0 1 (DepOk_init 3).2 0,
   C8_dep_invariant.2 ctx3 25 (.searchDeps 0 none) (RState.init 3) c3st
     (by decide) (DepOk_init 3) 0⟩

/-! ## Claim C9 -/

/-- Claim C9: whenever the classic (fallback) scanner path is taken — the
mode lacks `+`, or the advanced scanner fails — every header the classic
scanner resolves appears in the result, and for every such resolved file
that is a recognized header with a same-base-name sibling source file on
disk, that sibling is also in the result; when the advanced scanner is
attempted and succeeds, the result is exactly its output, with no
widening. -/
theorem C9_scanner_widening (c : Ctx) (mode : String) (dirs : List String)
    (path : String) :
    ((strHasChar mode '+' = false ∨ c.advScan dirs path = none) →
      ∀ inc ∈ c.classicScan dirs path,
        inc ∈ getFoundIncludesOne c mode dirs path ∧
        (∀ stem ext e, isFileWithExt inc c.srcHeaderExt = true →
          splitLastDot inc = some (stem, ext) → e ∈ c.srcCExt →
          c.isfile (stem ++ "." ++ e) = true →
          (stem ++ "." ++ e) ∈ getFoundIncludesOne c mode dirs path)) ∧
    (∀ incs, strHasChar mode '+' = true → c.advScan dirs path = some incs →
      getFoundIncludesOne c mode dirs path = incs) := by
  constructor
  · intro hfb inc hinc
    have hres : getFoundIncludesOne c mode dirs path = classicWiden c dirs path := by
      unfold getFoundIncludesOne
      rcases hfb with h | h
      · rw [if_neg (by simp [h])]
      · split
        · rw [h]
        · rfl
    rw [hres]
    constructor
    · exact mem_foldl_of_step (widenStep c) (widenStep_extends c)
        (mem_widenStep_self c inc) _ [] hinc
    · intro stem ext e hh hsplit he hf
      exact mem_foldl_of_step (widenStep c) (widenStep_extends c)
        (mem_widenStep_sibling c inc stem ext e hh hsplit he hf) _ [] hinc
  · intro incs hplus hadv
    unfold getFoundIncludesOne
    rw [if_pos hplus, hadv]

/-- Claim C9 witness: a concrete fallback scan (mode `chain`, no advanced
scanner) where the classic scanner finds `/W/a.h` and `/W/a.cpp` exists on
disk, so both end up in the scan result; and a concrete advanced success
(mode `chain+`) returning exactly the scanner output. -/
theorem C9_witness :
    ("/W/a.h" ∈ getFoundIncludesOne ctxW "chain" [] "/W/m.cpp" ∧
     "/W/a" ++ "." ++ "cpp" ∈ getFoundIncludesOne ctxW "chain" [] "/W/m.cpp") ∧
    getFoundIncludesOne ctxW "chain+" [] "/W/m.cpp" = ["/W/adv.h"] := by
  have h := (C9_scanner_widening ctxW "chain" [] "/W/m.cpp").1 (Or.inl (by decide))
    "/W/a.h" (by decide)
  refine ⟨⟨h.1, h.2 "/W/a" "h" "cpp" (by decide) (by decide) (by decide) (by decide)⟩, ?_⟩
  exact (C9_scanner_widening ctxW "chain+" [] "/W/m.cpp").2 ["/W/adv.h"]
    (by decide) (by decide)

/-! ## AppendUnique and merge lemmas -/

theorem appendUnique_extends (xs ys : List String) :
    ∃ t, appendUnique xs ys = xs ++ t := by
  refine foldl_append_extends _ ?_ ys xs
  intro a y
  by_cases h : a.contains y = true
  · refine ⟨[], ?_⟩
    show (if a.contains y = true then a else a ++ [y]) = a ++ []
    rw [if_pos h, List.append_nil]
  · refine ⟨[y], ?_⟩
    show (if a.contains y = true then a else a ++ [y]) = a ++ [y]
    rw [if_neg h]

theorem appendUnique_subset_left (xs ys : List String) :
    xs ⊆ appendUnique xs ys := by
  obtain ⟨t, ht⟩ := appendUnique_extends xs ys
  rw [ht]
  exact List.subset_append_left _ _

theorem mem_appendUnique_right {y : String} {ys : List String} (h : y ∈ ys)
    (xs : List String) : y ∈ appendUnique xs ys := by
  refine mem_foldl_of_step _ ?_ ?_ ys xs h
  · intro a x
    by_cases hc : a.contains x = true
    · refine ⟨[], ?_⟩
      show (if a.contains x = true then a else a ++ [x]) = a ++ []
      rw [if_pos hc, List.append_nil]
    · refine ⟨[x], ?_⟩
      show (if a.contains x = true then a else a ++ [x]) = a ++ [x]
      rw [if_neg hc]
  · intro a
    by_cases hc : a.contains y = true
    · show y ∈ (if a.contains y = true then a else a ++ [y])
      rw [if_pos hc]
      exact mem_of_contains_true hc
    · show y ∈ (if a.contains y = true then a else a ++ [y])
      rw [if_neg hc]
      exact List.mem_append_right _ (by simp)

theorem appendUnique_subset_right (ys xs : List String) :
    ys ⊆ appendUnique xs ys :=
  fun _ hy => mem_appendUnique_right hy xs

theorem entrySub_refl (e : BEnvEntry) : entrySub e e :=
  ⟨fun _ h => h, fun _ h => h, fun _ h => h, fun _ h => h⟩

theorem entrySub_trans {a b c2 : BEnvEntry} (h1 : entrySub a b)
    (h2 : entrySub b c2) : entrySub a c2 :=
  ⟨h1.1.trans h2.1, h1.2.1.trans h2.2.1, h1.2.2.1.trans h2.2.2.1,
   h1.2.2.2.trans h2.2.2.2⟩

theorem entrySub_merge_left (e1 e2 : BEnvEntry) :
    entrySub e1 (mergeEntry e1 e2) :=
  ⟨appendUnique_subset_left _ _, appendUnique_subset_left _ _,
   appendUnique_subset_left _ _, appendUnique_subset_left _ _⟩

theorem entrySub_merge_right (e1 e2 : BEnvEntry) :
    entrySub e2 (mergeEntry e1 e2) :=
  ⟨appendUnique_subset_right _ _, appendUnique_subset_right _ _,
   appendUnique_subset_right _ _, appendUnique_subset_right _ _⟩

theorem envF_mergeKeys_other (st : RState) (self j k : Nat) (h : k ≠ self) :
    envF (mergeKeys st self j) k = envF st k := by
  unfold mergeKeys envF
  exact getD_set_ne _ _ _ _ _ (fun hh => h hh.symm)

theorem envF_mergeKeys_self (st : RState) (self j : Nat)
    (h : self < st.envs.length) :
    envF (mergeKeys st self j) self = mergeEntry (envF st self) (envF st j) := by
  unfold mergeKeys envF
  exact getD_set_self _ _ _ _ h

theorem mergeKeys_self_mono (st : RState) (self j : Nat) :
    entrySub (envF st self) (envF (mergeKeys st self j) self) := by
  by_cases h : self < st.envs.length
  · rw [envF_mergeKeys_self st self j h]
    exact entrySub_merge_left _ _
  · unfold mergeKeys envF
    rw [set_oob _ _ _ (Nat.le_of_not_lt h)]
    exact entrySub_refl _

/-! ## The LDF-off flat merge (`offModeMerge`) -/

theorem offFold_built :
    ∀ (L : List Nat) (st : RState) (self i : Nat),
      builtF (L.foldl (fun st j =>
        if j = self || !builtF st j then st else mergeKeys st self j) st) i =
      builtF st i := by
  intro L
  induction L with
  | nil => intro st self i; rfl
  | cons j L ih =>
    intro st self i
    simp only [List.foldl_cons]
    by_cases hc : (decide (j = self) || !builtF st j) = true
    · rw [if_pos hc]
      exact ih st self i
    · rw [if_neg hc]
      exact ih (mergeKeys st self j) self i

theorem offFold_envs_length :
    ∀ (L : List Nat) (st : RState) (self : Nat),
      (L.foldl (fun st j =>
        if j = self || !builtF st j then st else mergeKeys st self j) st).envs.length =
      st.envs.length := by
  intro L
  induction L with
  | nil => intro st self; rfl
  | cons j L ih =>
    intro st self
    simp only [List.foldl_cons]
    by_cases hc : (decide (j = self) || !builtF st j) = true
    · rw [if_pos hc]
      exact ih st self
    · rw [if_neg hc]
      rw [ih (mergeKeys st self j) self]
      exact List.length_set _ _ _

theorem offFold_self_mono :
    ∀ (L : List Nat) (st : RState) (self : Nat),
      entrySub (envF st self) (envF (L.foldl (fun st j =>
        if j = self || !builtF st j then st else mergeKeys st self j) st) self) := by
  intro L
  induction L with
  | nil => intro st self; exact entrySub_refl _
  | cons j L ih =>
    intro st self
    simp only [List.foldl_cons]
    by_cases hc : (decide (j = self) || !builtF st j) = true
    · rw [if_pos hc]
      exact ih st self
    · rw [if_neg hc]
      exact entrySub_trans (mergeKeys_self_mono st self j)
        (ih (mergeKeys st self j) self)

theorem offFold_mem :
    ∀ (L : List Nat) (st : RState) (self i : Nat), self < st.envs.length →
      i ∈ L → i ≠ self → builtF st i = true →
      entrySub (envF st i) (envF (L.foldl (fun st j =>
        if j = self || !builtF st j then st else mergeKeys st self j) st) self) := by
  intro L
  induction L with
  | nil => intro st self i _ hmem; cases hmem
  | cons j L ih =>
    intro st self i hrange hmem hne hbuilt
    simp only [List.foldl_cons]
    rcases List.mem_cons.mp hmem with rfl | hmem
    · have hc : ¬ ((decide (i = self) || !builtF st i) = true) := by
        simp [hne, hbuilt]
      rw [if_neg hc]
      refine entrySub_trans ?_ (offFold_self_mono L (mergeKeys st self i) self)
      rw [envF_mergeKeys_self st self i hrange]
      exact entrySub_merge_right _ _
    · by_cases hc : (decide (j = self) || !builtF st j) = true
      · rw [if_pos hc]
        exact ih st self i hrange hmem hne hbuilt
      · rw [if_neg hc]
        have h1 : envF (mergeKeys st self j) i = envF st i :=
          envF_mergeKeys_other st self j i hne
        have h2 : builtF (mergeKeys st self j) i = builtF st i := rfl
        have h3 : self < (mergeKeys st self j).envs.length := by
          unfold mergeKeys
          rw [List.length_set]
          exact hrange
        have h4 := ih (mergeKeys st self j) self i h3 hmem hne (h2.trans hbuilt)
        rw [h1] at h4
        exact h4

/-! ## Structural state lemmas for the resolver steps -/

theorem dependLink_processed (s : RState) (self lb : Nat) :
    (dependLink s self lb).processed = s.processed := by
  unfold dependLink
  split
  · rfl
  · split
    · rfl
    · split
      · rfl
      · rfl

theorem dependLink_tgt_other (s : RState) {self : Nat} (lb : Nat) {tgt : Nat}
    (h : self ≠ tgt) :
    depF (dependLink s self lb) tgt = depF s tgt ∧
    procF (dependLink s self lb) tgt = procF s tgt := by
  constructor
  · rcases dependLink_dep_cases s self lb with hd | ⟨_, _, _, hd⟩
    · unfold depF; rw [hd]
    · unfold depF
      rw [hd]
      exact getD_set_ne _ _ _ _ _ h
  · unfold procF
    rw [dependLink_processed]

theorem getFoundIncludes_dep (c : Ctx) (self : Nat) (s : RState)
    (files : Option (List String)) :
    (getFoundIncludes c self s files).1.dep = s.dep := rfl

theorem getFoundIncludes_processed (c : Ctx) (self : Nat) (s : RState)
    (files : Option (List String)) :
    (getFoundIncludes c self s files).1.processed =
      s.processed.set self
        (validateSearchFiles (procF s self) (files.getD [])).2 := rfl

/-- With LDF mode `off` on builder `tgt` (not the project) and no declared
dependencies, no step of the resolver — from any call that is not one of
`tgt`'s own loop bodies — changes `tgt`'s `_depbuilders` or
`_processed_files`: `tgt`'s `search_deps_recursive` returns right after its
(empty) explicit-dependency pass, before any include scanning. -/
theorem run_off_tgt (c : Ctx) (tgt : Nat) (hM : c.effMode tgt = "off")
    (hP : c.isProj tgt = false) (hD : (c.conf tgt).deps = []) :
    ∀ (fuel : Nat) (call : Call) (s s2 : RState), selfSafe tgt call →
      run c fuel call s = .ok s2 →
      depF s2 tgt = depF s tgt ∧ procF s2 tgt = procF s tgt := by
  intro fuel
  induction fuel with
  | zero => intro call s s2 _ h; simp [run] at h
  | succ fuel ih =>
    intro call s s2 hsafe h
    cases call with
    | depRec self lb files =>
      simp only [run] at h
      have hne : self ≠ tgt := hsafe
      have h1 := ih (.searchDeps lb files) _ _ (by exact trivial) h
      have h2 := dependLink_tgt_other s lb hne
      exact ⟨h1.1.trans h2.1, h1.2.trans h2.2⟩
    | searchDeps self files =>
      simp only [run] at h
      by_cases hd : isDepF s self = true
      · rw [if_pos hd] at h
        exact ih _ _ _ (by exact trivial) h
      · rw [if_neg hd] at h
        cases hr : run c fuel (.procDeps self)
            { s with isDep := s.isDep.set self true } with
        | ok s3 =>
          simp only [hr] at h
          have h1 := ih (.procDeps self) _ _ (by exact trivial) hr
          have h2 := ih _ _ _ (by exact trivial) h
          exact ⟨h2.1.trans h1.1, h2.2.trans h1.2⟩
        | fatal m => simp only [hr] at h; exact RunRes.noConfusion h
        | fuelOut => simp only [hr] at h; exact RunRes.noConfusion h
    | scanLink self files =>
      simp only [run] at h
      by_cases hoff : c.effMode self = "off"
      · rw [if_pos hoff] at h
        injection h with h2
        subst h2
        exact ⟨rfl, rfl⟩
      · rw [if_neg hoff] at h
        have hne : self ≠ tgt := fun hh => hoff (hh ▸ hM)
        have h1 := ih (.linkLoop self _) _ _ (by exact hne) h
        refine ⟨h1.1.trans ?_, h1.2.trans ?_⟩
        · rfl
        · unfold procF
          rw [getFoundIncludes_processed]
          exact getD_set_ne _ _ _ _ _ hne
    | procDeps self =>
      simp only [run] at h
      by_cases hp : c.isProj self = true
      · rw [if_pos hp] at h
        by_cases hl : c.libDeps.isEmpty = true
        · rw [if_pos hl] at h
          injection h with h2
          subst h2
          exact ⟨rfl, rfl⟩
        · rw [if_neg hl] at h
          have hne : self ≠ tgt := fun hh => by rw [hh, hP] at hp; cases hp
          exact ih _ _ _ (by exact hne) h
      · rw [if_neg hp] at h
        by_cases hl : (c.conf self).deps.isEmpty = true
        · rw [if_pos hl] at h
          injection h with h2
          subst h2
          exact ⟨rfl, rfl⟩
        · rw [if_neg hl] at h
          have hne : self ≠ tgt := by
            intro hh
            subst hh
            rw [hD] at hl
            exact hl rfl
          exact ih _ _ _ (by exact hne) h
    | procDepsLoop self items =>
      have hne : self ≠ tgt := hsafe
      cases items with
      | nil =>
        simp only [run] at h
        injection h with h2
        subst h2
        exact ⟨rfl, rfl⟩
      | cons it rest =>
        simp only [run] at h
        by_cases hs : skipItem c it = true
        · rw [if_pos hs] at h
          exact ih _ _ _ (by exact hne) h
        · rw [if_neg hs] at h
          cases hf : findDep c s it with
          | some lb =>
            simp only [hf] at h
            cases hr : run c fuel (.depRec self lb none) s with
            | ok s3 =>
              simp only [hr] at h
              have h1 := ih _ _ _ (by exact hne) hr
              have h2 := ih _ _ _ (by exact hne) h
              exact ⟨h2.1.trans h1.1, h2.2.trans h1.2⟩
            | fatal m => simp only [hr] at h; exact RunRes.noConfusion h
            | fuelOut => simp only [hr] at h; exact RunRes.noConfusion h
          | none =>
            simp only [hf] at h
            exact RunRes.noConfusion h
    | projDepsLoop self dirs uris =>
      have hne : self ≠ tgt := hsafe
      cases uris with
      | nil =>
        simp only [run] at h
        injection h with h2
        subst h2
        exact ⟨rfl, rfl⟩
      | cons uri rest =>
        simp only [run] at h
        cases ht : projTarget c s dirs uri with
        | some lb =>
          simp only [ht] at h
          by_cases hc : (depF s self).contains lb = true
          · rw [if_pos hc] at h
            exact ih _ _ _ (by exact hne) h
          · rw [if_neg hc] at h
            cases hr : run c fuel (.depRec self lb none) s with
            | ok s3 =>
              simp only [hr] at h
              have h1 := ih _ _ _ (by exact hne) hr
              have h2 := ih _ _ _ (by exact hne) h
              exact ⟨h2.1.trans h1.1, h2.2.trans h1.2⟩
            | fatal m => simp only [hr] at h; exact RunRes.noConfusion h
            | fuelOut => simp only [hr] at h; exact RunRes.noConfusion h
        | none =>
          simp only [ht] at h
          exact ih _ _ _ (by exact hne) h
    | linkLoop self pairs =>
      have hne : self ≠ tgt := hsafe
      cases pairs with
      | nil =>
        simp only [run] at h
        injection h with h2
        subst h2
        exact ⟨rfl, rfl⟩
      | cons pr rest =>
        obtain ⟨lb, fs⟩ := pr
        simp only [run] at h
        cases hr : run c fuel (.depRec self lb (some fs)) s with
        | ok s3 =>
          simp only [hr] at h
          have h1 := ih _ _ _ (by exact hne) hr
          have h2 := ih _ _ _ (by exact hne) h
          exact ⟨h2.1.trans h1.1, h2.2.trans h1.2⟩
        | fatal m => simp only [hr] at h; exact RunRes.noConfusion h
        | fuelOut => simp only [hr] at h; exact RunRes.noConfusion h

/-! ## Claim C5 -/

/-- Claim C5: a library with `lib_ldf_mode = "off"` (not the project) and
no manifest-declared dependencies undergoes no include-based discovery
anywhere in the resolution: its `_depbuilders` and `_processed_files` are
untouched by every resolver step outside its own (never-reached) loop
bodies.  Yet in `build`, the off-mode flat merge copies all four flag
keys of every other already-built registry builder into its environment,
regardless of any relationship — shown both as the general containment
through `offModeMerge` and end-to-end on a concrete run where the unrelated
built library B's flags all land in A's environment. -/
theorem C5_off_mode :
    (∀ (c : Ctx) (tgt : Nat), c.effMode tgt = "off" → c.isProj tgt = false →
      (c.conf tgt).deps = [] →
      ∀ (fuel : Nat) (call : Call) (s s2 : RState), selfSafe tgt call →
        run c fuel call s = .ok s2 →
        depF s2 tgt = depF s tgt ∧ procF s2 tgt = procF s tgt) ∧
    (∀ (c : Ctx) (s : RState) (self i : Nat), self < s.envs.length →
      i ∈ c.getLibBuilders s → i ≠ self → builtF s i = true →
      entrySub (envF s i) (envF (offModeMerge c s self) self)) ∧
    (ctx5.effMode 0 = "off" ∧ depF s5 0 = [] ∧ builtF s5 1 = true ∧
      c5res = some (c5st, [0]) ∧
      "-IB" ∈ (envF c5st 0).cpp ∧ "LB" ∈ (envF c5st 0).libp ∧
      "b" ∈ (envF c5st 0).libsK ∧ "-lb" ∈ (envF c5st 0).linkf) := by
  refine ⟨run_off_tgt, ?_, by decide, by decide, by decide, by decide,
    by decide, by decide, by decide, by decide⟩
  intro c s self i hrange hmem hne hbuilt
  unfold offModeMerge
  exact offFold_mem (c.getLibBuilders s) s self i hrange hmem hne hbuilt

/-- Claim C5 witness: both universal parts applied to the concrete off-mode
library A (index 0) of the C5 scenario. -/
theorem C5_witness :
    (depF ((run ctx5 6 (.searchDeps 0 none) (RState.init 3)).okD (RState.init 3)) 0 =
        depF (RState.init 3) 0 ∧
      procF ((run ctx5 6 (.searchDeps 0 none) (RState.init 3)).okD (RState.init 3)) 0 =
        procF (RState.init 3) 0) ∧
    entrySub (envF s5 1) (envF (offModeMerge ctx5 s5 0) 0) := by
  constructor
  · exact C5_off_mode.1 ctx5 0 (by decide) (by decide) (by decide) 6
      (.searchDeps 0 none) (RState.init 3) _ trivial (by decide)
  · exact C5_off_mode.2.1 ctx5 s5 0 1 (by decide) (by decide) (by decide)
      (by decide)

/-! ## Claim C7 -/

/-- Claim C7 counterexample: with no framework context in the environment,
a compat-mode-2 library that is platform-compatible but not
framework-compatible is still kept, so "kept iff framework-compatible AND
platform-compatible" fails for compat mode 2 (the framework half of the
check only runs when `PIOFRAMEWORK` is present, for mode 2 just as for
mode 1). -/
theorem C7_counterexample :
    checkLibBuilder c7env c7lb = .pyTrue ∧
    c7lb.libCompatMode = 2 ∧
    c7lb.platCompat [c7env.pioPlatform] = true ∧
    c7lb.fwCompat (c7env.pioFrameworks.getD []) = false := by
  refine ⟨by decide, by decide, rfl, rfl⟩

/-- Claim C7 (amended): an entry named on the ignore list is dropped
unconditionally (result `None`), regardless of compat mode.  Otherwise an
entry is kept iff its platform check passes whenever compat mode exceeds 1,
and its framework check passes whenever compat mode exceeds 0 AND a
framework context exists — i.e. the framework condition is guarded by
context presence for mode 2 exactly as for mode 1; compat mode 0 entries
are always kept. -/
theorem C7_filter_amended (env : RegEnv) (lb : RegLib) :
    (checkLibBuilder env lb = .pyNone ↔ lb.name ∈ env.libIgnore) ∧
    (checkLibBuilder env lb = .pyTrue ↔
      lb.name ∉ env.libIgnore ∧
      (1 < lb.libCompatMode → lb.platCompat [env.pioPlatform] = true) ∧
      (0 < lb.libCompatMode → env.pioFrameworks.isSome = true →
        lb.fwCompat (env.pioFrameworks.getD []) = true)) := by
  by_cases h1 : lb.name ∈ env.libIgnore
  · simp [checkLibBuilder, h1]
  · by_cases hm0 : 0 < lb.libCompatMode
    · by_cases hm1 : 1 < lb.libCompatMode <;>
        cases hb1 : lb.platCompat [env.pioPlatform] <;>
        cases hb2 : env.pioFrameworks.isSome <;>
        cases hb3 : lb.fwCompat (env.pioFrameworks.getD []) <;>
        simp [checkLibBuilder, h1, hm0, hm1, hb1, hb2, hb3]
    · have hm1 : ¬ 1 < lb.libCompatMode := by omega
      cases hb1 : lb.platCompat [env.pioPlatform] <;>
        cases hb2 : env.pioFrameworks.isSome <;>
        cases hb3 : lb.fwCompat (env.pioFrameworks.getD []) <;>
        simp [checkLibBuilder, h1, hm0, hm1, hb1, hb2, hb3]

/-- Claim C7 witness: the amended characterization applied to the concrete
no-framework-context entry, reproducing the kept verdict. -/
theorem C7_witness : checkLibBuilder c7env c7lb = .pyTrue :=
  (C7_filter_amended c7env c7lb).2.mpr
    ⟨by decide, fun _ => rfl, fun _ h => absurd h (by decide)⟩

end PioLib
